import Mathlib

/-!
Verification of the cluster metadata model (`services/meta`, package `meta`)
and of the write-path shard dispatcher (`coordinator`, package `coordinator`)
of the influxdb-cluster repository.

The Go code is shallowly embedded:

* `time.Time` values are modelled as `Int` nanoseconds.  Go's zero time is a
  distinguished instant; fields that use the zero time as an "unset" marker
  (`DeletedAt`, `TruncatedAt`, and the `earliest`/`latest` fields of `sgList`)
  are modelled as `Option Int` with `none` standing for the zero time.
  Where the code compares against a possibly-zero time directly, the constant
  `zeroTime` (the zero instant in nanoseconds relative to the Unix epoch) is
  substituted for `none`.
* `time.Duration` is modelled as `Int` nanoseconds.
* `uint64` identifiers are modelled as `Nat` (no arithmetic is done on them).
* Go maps are modelled as association lists; iteration order over a map is
  modelled as the order of first insertion (Go's iteration order is
  unspecified; every key-frequency map below is consumed through scans whose
  verified properties are stated relative to the enumeration order).
* Fallible functions return `Except MetaError _`; functions whose only Go
  result is an `error` return the mutated state on success.
* Go's `sort.Sort` is modelled as `List.insertionSort` with the reflexive
  closure of the source's `Less`; the two can differ only in the relative
  order of elements whose sort keys are equal.
-/

/-- Go's zero `time.Time` (January 1, year 1, UTC) in nanoseconds relative to
the Unix epoch: `-62135596800` seconds. -/
def zeroTime : Int := -62135596800000000000

/-- `models.MaxNanoTime`: the maximum representable point timestamp. -/
def maxNanoTime : Int := 9223372036854775806

/-- `models.MinNanoTime`: the minimum representable point timestamp. -/
def minNanoTime : Int := -9223372036854775806

/-- `time.Time.Truncate`: rounds `t` down to a multiple of `d`; for `d ≤ 0`
the time is returned unchanged.  (Go truncates relative to the zero time; a
change of origin does not affect any property proved below.) -/
def truncateTime (t : Int) (d : Int) : Int :=
  if d ≤ 0 then t else t - t % d

/-- `meta.ShardOwner`. -/
structure ShardOwner where
  nodeID : Nat
deriving DecidableEq, Repr

instance : Inhabited ShardOwner := ⟨⟨0⟩⟩

/-- `meta.ShardInfo`. -/
structure ShardInfo where
  id : Nat
  owners : List ShardOwner
deriving DecidableEq, Repr

instance : Inhabited ShardInfo := ⟨⟨0, []⟩⟩

/-- `meta.ShardGroupInfo`.  `deletedAt`/`truncatedAt` use `none` for the Go
zero time ("not deleted" / "not truncated"). -/
structure ShardGroupInfo where
  id : Nat
  startTime : Int
  endTime : Int
  deletedAt : Option Int
  shards : List ShardInfo
  truncatedAt : Option Int
deriving DecidableEq, Repr

instance : Inhabited ShardGroupInfo := ⟨⟨0, 0, 0, none, [], none⟩⟩

/-- `ShardGroupInfo.Deleted`: whether the group is tombstoned. -/
def ShardGroupInfo.Deleted (sgi : ShardGroupInfo) : Bool :=
  sgi.deletedAt.isSome

/-- `ShardGroupInfo.Truncated`: whether the group is truncated. -/
def ShardGroupInfo.Truncated (sgi : ShardGroupInfo) : Bool :=
  sgi.truncatedAt.isSome

/-- `ShardGroupInfo.Contains`: `StartTime ≤ t < EndTime`. -/
def ShardGroupInfo.Contains (sgi : ShardGroupInfo) (t : Int) : Bool :=
  decide (sgi.startTime ≤ t) && decide (t < sgi.endTime)

/-- The effective end used for ordering and window shrinking:
`TruncatedAt` when truncated, otherwise `EndTime`. -/
def ShardGroupInfo.effectiveEnd (sgi : ShardGroupInfo) : Int :=
  sgi.truncatedAt.getD sgi.endTime

/-- The filter of `RetentionPolicyInfo.ShardGroupByTimestamp`: the group
contains `t`, is not deleted, and (if truncated) `t` precedes `TruncatedAt`. -/
def ShardGroupInfo.coversAt (sgi : ShardGroupInfo) (t : Int) : Bool :=
  sgi.Contains t && !sgi.Deleted &&
    (match sgi.truncatedAt with
     | none => true
     | some ta => decide (t < ta))

/-- `meta.NodeInfo` (fields not used by the verified operations omitted). -/
structure NodeInfo where
  id : Nat
  addr : String
  tcpAddr : String
deriving DecidableEq, Repr

instance : Inhabited NodeInfo := ⟨⟨0, "", ""⟩⟩

/-- `meta.RetentionPolicyInfo` (subscriptions omitted: unused here). -/
structure RetentionPolicyInfo where
  name : String
  replicaN : Nat
  duration : Int
  shardGroupDuration : Int
  shardGroups : List ShardGroupInfo
deriving DecidableEq, Repr

/-- `meta.DatabaseInfo` (continuous queries and subscriptions omitted). -/
structure DatabaseInfo where
  name : String
  defaultRetentionPolicy : String
  retentionPolicies : List RetentionPolicyInfo
deriving DecidableEq, Repr

/-- `meta.Data` (fields untouched by the verified operations omitted:
`Term`, `ClusterID`, `MetaNodes`, `Users`, `MaxNodeID`). -/
structure Data where
  index : Nat
  dataNodes : List NodeInfo
  databases : List DatabaseInfo
  maxShardGroupID : Nat
  maxShardID : Nat
deriving DecidableEq, Repr

/-- The typed errors produced by the embedded operations. -/
inductive MetaError where
  | databaseNotFound (name : String)
  | retentionPolicyNotFound (policy : String)
  | nodeNotFound
  | cannotReassignShard (shardID : Nat)
deriving DecidableEq, Repr

/-- `RetentionPolicyInfo.ShardGroupByTimestamp`: the first shard group of the
policy that contains the timestamp, is not deleted and not truncated at or
before it. -/
def RetentionPolicyInfo.shardGroupByTimestamp (rpi : RetentionPolicyInfo)
    (t : Int) : Option ShardGroupInfo :=
  rpi.shardGroups.find? (fun sgi => sgi.coversAt t)

/-- `Data.Database`: the first database with the given name. -/
def Data.database (data : Data) (name : String) : Option DatabaseInfo :=
  data.databases.find? (fun di => di.name = name)

/-- `Data.RetentionPolicy`: error when the database is missing, otherwise the
first policy with the given name (or `none`). -/
def Data.retentionPolicy (data : Data) (database name : String) :
    Except MetaError (Option RetentionPolicyInfo) :=
  match data.database database with
  | none => .error (.databaseNotFound database)
  | some di => .ok (di.retentionPolicies.find? (fun rpi => rpi.name = name))

/-- Replace the first element satisfying `p` by its image under `f`
(models mutation through a pointer obtained from a first-match scan). -/
def updateFirst (p : α → Bool) (f : α → α) : List α → List α
  | [] => []
  | x :: xs => if p x then f x :: xs else x :: updateFirst p f xs

/-- Update the first element for which `f` fires, keeping the rest; `none`
when `f` fires nowhere (models loops that `return` at the first match). -/
def updateFirstOpt (f : α → Option α) : List α → Option (List α)
  | [] => none
  | x :: xs =>
    match f x with
    | some y => some (y :: xs)
    | none => (updateFirstOpt f xs).map (x :: ·)

/-- All shard groups of `data`, in the traversal order of the source's nested
loops (databases, then retention policies, then groups). -/
def Data.allGroups (data : Data) : List ShardGroupInfo :=
  data.databases.flatMap (fun di =>
    di.retentionPolicies.flatMap (fun rpi => rpi.shardGroups))

/-- All retention policies of `data`, in traversal order. -/
def Data.allRPs (data : Data) : List RetentionPolicyInfo :=
  data.databases.flatMap (fun di => di.retentionPolicies)

/-! ### DropShard (`Data.DropShard`) -/

/-- The per-group body of `Data.DropShard`: if a shard with the given id is in
the group, remove the first such shard; the group is tombstoned at `now` when
the removed shard was its last one. -/
def dropShardSG (id : Nat) (now : Int) (sg : ShardGroupInfo) :
    Option ShardGroupInfo :=
  match sg.shards.findIdx? (fun s => s.id = id) with
  | none => none
  | some i =>
    some { sg with
            shards := sg.shards.eraseIdx i,
            deletedAt := if sg.shards.length = 1 then some now else sg.deletedAt }

/-- The per-policy layer of `Data.DropShard`: update the first group of the
policy that holds the shard. -/
def dropShardRP (id : Nat) (now : Int) (rpi : RetentionPolicyInfo) :
    Option RetentionPolicyInfo :=
  (updateFirstOpt (dropShardSG id now) rpi.shardGroups).map
    (fun sgs => { rpi with shardGroups := sgs })

/-- The per-database layer of `Data.DropShard`. -/
def dropShardDB (id : Nat) (now : Int) (di : DatabaseInfo) :
    Option DatabaseInfo :=
  (updateFirstOpt (dropShardRP id now) di.retentionPolicies).map
    (fun rps => { di with retentionPolicies := rps })

/-- `Data.DropShard`: removes a shard by id from the first shard group holding
it; no error if the shard cannot be found. -/
def Data.dropShard (data : Data) (id : Nat) (now : Int) : Data :=
  { data with databases :=
      (updateFirstOpt (dropShardDB id now) data.databases).getD data.databases }

/-! ### Leases (`meta.Leases`) -/

/-- `meta.Lease`. -/
structure Lease where
  name : String
  expiration : Int
  owner : Nat
deriving DecidableEq, Repr

/-- `meta.Leases`: the lease table (the mutex is irrelevant to the sequential
model).  The map is an association list keyed by name. -/
structure Leases where
  m : List (String × Lease)
  d : Int
deriving DecidableEq, Repr

/-- Association-list lookup (Go map indexing). -/
def lookupKey (k : String) : List (String × Lease) → Option Lease
  | [] => none
  | (k', v) :: rest => if k' = k then some v else lookupKey k rest

/-- Association-list store (Go map assignment). -/
def storeKey (k : String) (v : Lease) : List (String × Lease) → List (String × Lease)
  | [] => [(k, v)]
  | (k', v') :: rest => if k' = k then (k, v) :: rest else (k', v') :: storeKey k v rest

/-- `Leases.Acquire`.  Both calls to `time.Now()` in the source are modelled
by the single parameter `now`.  Returns the lease and the error, along with
the updated table. -/
def Leases.acquire (leases : Leases) (now : Int) (name : String)
    (nodeID : Nat) : (Lease × Option String) × Leases :=
  match lookupKey name leases.m with
  | some l =>
    if now > l.expiration ∨ l.owner = nodeID then
      let l' : Lease := { l with expiration := now + leases.d, owner := nodeID }
      ((l', none), { leases with m := storeKey name l' leases.m })
    else
      ((l, some "another node has the lease"), leases)
  | none =>
    let l : Lease := { name := name, expiration := now + leases.d, owner := nodeID }
    ((l, none), { leases with m := storeKey name l leases.m })

/-! ### CreateShardGroup (`Data.CreateShardGroup`) -/

/-- The source's shard-count loop `for shardN*replicaN % n != 0 { shardN++ }`,
with explicit fuel (`n` steps always suffice, since `n * replicaN % n = 0`). -/
def shardNGo (fuel replicaN n k : Nat) : Nat :=
  match fuel with
  | 0 => k
  | fuel' + 1 => if k * replicaN % n = 0 then k else shardNGo fuel' replicaN n (k + 1)

/-- The number of shards created for a group: the smallest positive `k` with
`k * replicaN` divisible by the data-node count. -/
def shardCount (replicaN n : Nat) : Nat :=
  shardNGo n replicaN n 1

/-- One step of the candidate-window loop of `CreateShardGroup`: shrink the
window `w` so that it does not intersect the non-deleted group `g` (whose
effective end is `TruncatedAt` when truncated). -/
def shrinkWindow (timestamp : Int) (w : Int × Int) (g : ShardGroupInfo) :
    Int × Int :=
  if g.Deleted then w
  else
    let startI := g.startTime
    let endI := g.effectiveEnd
    let s := if ¬ timestamp < endI ∧ w.1 < endI then endI else w.1
    let e := if timestamp < startI ∧ startI < w.2 then startI else w.2
    (s, e)

/-- The data node picked by the round-robin walk at step `k`. -/
def nodeIDAt (nodes : List NodeInfo) (k : Nat) : Nat :=
  (nodes.getD (k % nodes.length) default).id

/-- Round-robin owner assignment: shard `i` receives replicas
`start + i*replicaN + j` for `j < replicaN` (the flattened form of the
source's running `nodeIndex`). -/
def assignOwners (nodes : List NodeInfo) (start replicaN : Nat)
    (shards : List ShardInfo) : List ShardInfo :=
  shards.mapIdx (fun i s =>
    { s with owners := ((List.range replicaN).map
        (fun j => ⟨nodeIDAt nodes (start + i * replicaN + j)⟩)) })

/-- The reflexive closure of `ShardGroupInfos.Less`: order by effective end
time, then by start time. -/
def sgLe (a b : ShardGroupInfo) : Prop :=
  a.effectiveEnd < b.effectiveEnd ∨
    (a.effectiveEnd = b.effectiveEnd ∧ a.startTime ≤ b.startTime)

instance : DecidableRel sgLe := fun a b => by
  unfold sgLe; exact inferInstance

instance : IsTotal ShardGroupInfo sgLe :=
  ⟨by
    intro a b
    unfold sgLe
    rcases lt_trichotomy a.effectiveEnd b.effectiveEnd with h | h | h
    · exact Or.inl (Or.inl h)
    · rcases le_total a.startTime b.startTime with hs | hs
      · exact Or.inl (Or.inr ⟨h, hs⟩)
      · exact Or.inr (Or.inr ⟨h.symm, hs⟩)
    · exact Or.inr (Or.inl h)⟩

instance : IsTrans ShardGroupInfo sgLe :=
  ⟨by
    intro a b c hab hbc
    unfold sgLe at *
    rcases hab with h1 | ⟨h1, h1'⟩ <;> rcases hbc with h2 | ⟨h2, h2'⟩
    · exact Or.inl (h1.trans h2)
    · exact Or.inl (h2 ▸ h1)
    · exact Or.inl (h1 ▸ h2)
    · exact Or.inr ⟨h1.trans h2, h1'.trans h2'⟩⟩

/-- `sort.Sort(ShardGroupInfos(...))`, modelled as a stable sort with respect
to the source's `Less`. -/
def sortShardGroups (l : List ShardGroupInfo) : List ShardGroupInfo :=
  l.insertionSort sgLe

/-- The replication clamp of `CreateShardGroup`: at least one replica, no
more replicas than data nodes. -/
def clampReplicaN (rpi : RetentionPolicyInfo) (n : Nat) : Nat :=
  if rpi.replicaN = 0 then 1
  else if n < rpi.replicaN then n else rpi.replicaN

/-- The candidate window of `CreateShardGroup`: the truncation bucket of the
timestamp, clamped at `MaxNanoTime + 1`, shrunk against every existing
non-deleted group. -/
def shardGroupWindow (rpi : RetentionPolicyInfo) (timestamp : Int) :
    Int × Int :=
  let s0 := truncateTime timestamp rpi.shardGroupDuration
  let e0 := s0 + rpi.shardGroupDuration
  let e1 := if maxNanoTime < e0 then maxNanoTime + 1 else e0
  rpi.shardGroups.foldl (shrinkWindow timestamp) (s0, e1)

/-- The shard group built by the creation path of `CreateShardGroup`: fresh
group and shard ids, the shrunk window, and round-robin owners starting at
`data.Index mod n`. -/
def newShardGroup (data : Data) (rpi : RetentionPolicyInfo) (timestamp : Int) :
    ShardGroupInfo :=
  let n := data.dataNodes.length
  let replicaN := clampReplicaN rpi n
  let shardN := shardCount replicaN n
  let w := shardGroupWindow rpi timestamp
  let shards0 := (List.range shardN).map
    (fun i => ShardInfo.mk (data.maxShardID + 1 + i) [])
  ⟨data.maxShardGroupID + 1, w.1, w.2, none,
    assignOwners data.dataNodes (data.index % n) replicaN shards0, none⟩

/-- `Data.CreateShardGroup`: creates a shard group on a database and policy
for a given timestamp. -/
def Data.createShardGroup (data : Data) (database policy : String)
    (timestamp : Int) : Except MetaError Data :=
  if data.dataNodes.length = 0 then .ok data
  else
    match data.retentionPolicy database policy with
    | .error e => .error e
    | .ok none => .error (.retentionPolicyNotFound policy)
    | .ok (some rpi) =>
      if (rpi.shardGroupByTimestamp timestamp).isSome then .ok data
      else
        .ok { data with
              maxShardGroupID := data.maxShardGroupID + 1,
              maxShardID := data.maxShardID +
                shardCount (clampReplicaN rpi data.dataNodes.length)
                  data.dataNodes.length,
              databases := (updateFirst (fun di => decide (di.name = database))
                (fun di =>
                  { di with retentionPolicies :=
                      (updateFirst (fun rp => decide (rp.name = policy))
                        (fun rp =>
                          { rp with shardGroups :=
                              sortShardGroups (rp.shardGroups ++
                                [newShardGroup data rpi timestamp]) })
                        di.retentionPolicies) })
                data.databases) }

/-- Well-formedness of a group as produced by the code: a truncation point
never lies beyond the group's end. -/
def wfSG (g : ShardGroupInfo) : Bool :=
  match g.truncatedAt with
  | none => true
  | some ta => decide (ta ≤ g.endTime)

/-- Arithmetic disjointness of the (effective) intervals of two groups;
trivially true when either group is deleted or either interval is empty. -/
def sgDisjointB (a b : ShardGroupInfo) : Bool :=
  a.Deleted || b.Deleted ||
    decide (a.effectiveEnd ≤ b.startTime) || decide (b.effectiveEnd ≤ a.startTime) ||
    decide (a.effectiveEnd ≤ a.startTime) || decide (b.effectiveEnd ≤ b.startTime)

/-- `u` lies in the effective interval of the non-deleted group `g`. -/
def membSG (g : ShardGroupInfo) (u : Int) : Prop :=
  g.deletedAt = none ∧ g.startTime ≤ u ∧ u < g.effectiveEnd

/-- No point-time lies in both groups (pairwise non-overlap, point-wise). -/
def sgDisjoint (a b : ShardGroupInfo) : Prop :=
  ∀ u : Int, ¬ (membSG a u ∧ membSG b u)

/-! ### DeleteDataNode (`Data.DeleteDataNode` and `newShardOwner`) -/

/-- Go map lookup for association lists over decidable keys. -/
def lookupAssoc [DecidableEq κ] (k : κ) : List (κ × ν) → Option ν
  | [] => none
  | (k', v) :: rest => if k' = k then some v else lookupAssoc k rest

/-- Go map store for association lists over decidable keys. -/
def storeAssoc [DecidableEq κ] (k : κ) (v : ν) : List (κ × ν) → List (κ × ν)
  | [] => [(k, v)]
  | (k', v') :: rest =>
    if k' = k then (k, v) :: rest else (k', v') :: storeAssoc k v rest

/-- `ownerFreqs[k]++` on the association-list rendering of the Go map; a new
key is enumerated after all existing ones. -/
def incrFreq (k : Nat) : List (Nat × Nat) → List (Nat × Nat)
  | [] => [(k, 1)]
  | (k', c) :: rest =>
    if k' = k then (k, c + 1) :: rest else (k', c) :: incrFreq k rest

/-- `delete(ownerFreqs, k)`. -/
def eraseFreq (k : Nat) : List (Nat × Nat) → List (Nat × Nat)
  | [] => []
  | (k', c) :: rest => if k' = k then rest else (k', c) :: eraseFreq k rest

/-- The per-group owner frequencies computed by `DeleteDataNode`: for every
shard of the group, every owner occurrence is counted (including those of the
node being deleted). -/
def groupOwnerFreqs (shards : List ShardInfo) : List (Nat × Nat) :=
  shards.foldl (fun m s => s.owners.foldl (fun m' o => incrFreq o.nodeID m') m) []

/-- The owner-removal scan of `DeleteDataNode`: `nodeIdx` records the last
index whose `NodeID` matches, and that entry is removed. -/
def ShardInfo.removeOwner (id : Nat) (s : ShardInfo) : ShardInfo :=
  let nodeIdx := (s.owners.foldl
    (fun (st : Option Nat × Nat) o =>
      (if o.nodeID = id then some st.2 else st.1, st.2 + 1)) (none, 0)).1
  match nodeIdx with
  | none => s
  | some i => { s with owners := s.owners.eraseIdx i }

/-- The minimum scan of `newShardOwner`: first entry (in enumeration order)
with the least frequency; strict improvement keeps the earliest minimum. -/
def minFreqScan (l : List (Nat × Nat)) : Option (Nat × Nat) :=
  l.foldl (fun acc p =>
    match acc with
    | none => some p
    | some q => if p.2 < q.2 then some p else some q) none

/-- `meta.newShardOwner`: picks the data node owning the fewest shards within
the group and bumps its running count; errors when no candidates remain. -/
def newShardOwner (s : ShardInfo) (ownerFreqs : List (Nat × Nat)) :
    Except MetaError (Nat × List (Nat × Nat)) :=
  match minFreqScan ownerFreqs with
  | none => .error (.cannotReassignShard s.id)
  | some (mid, _) => .ok (mid, incrFreq mid ownerFreqs)

/-- The orphan-reassignment loop of `DeleteDataNode`: each orphan (matched by
shard id, first occurrence) receives the owner chosen by `newShardOwner`,
with the running counts threaded through. -/
def reassignOrphans : List ShardInfo → List (Nat × Nat) → List ShardInfo →
    Except MetaError (List ShardInfo)
  | [], _, shards => .ok shards
  | orphan :: rest, freqs, shards =>
    match newShardOwner orphan freqs with
    | .error e => .error e
    | .ok (newID, freqs') =>
      reassignOrphans rest freqs'
        (updateFirst (fun s => decide (s.id = orphan.id))
          (fun s => { s with owners := s.owners ++ [⟨newID⟩] }) shards)

/-- Sequencing of a fallible function over a list, aborting at the first
error (the shape of the source's nested loops over an `error`-returning
body). -/
def mapExcept (f : α → Except ε β) : List α → Except ε (List β)
  | [] => .ok []
  | x :: xs =>
    match f x with
    | .error e => .error e
    | .ok y =>
      match mapExcept f xs with
      | .error e => .error e
      | .ok ys => .ok (y :: ys)

/-- The per-shard-group body of `DeleteDataNode`: strip the deleted node from
every owner list; tombstone the group when it has no shards or every shard
became orphaned; otherwise reassign each orphaned shard. -/
def deleteNodeFromGroup (id : Nat) (now : Int) (sg : ShardGroupInfo) :
    Except MetaError ShardGroupInfo :=
  let freqs0 := groupOwnerFreqs sg.shards
  let shards1 := sg.shards.map (ShardInfo.removeOwner id)
  let orphaned := shards1.filter (fun s => s.owners.isEmpty)
  if sg.shards.length = 0 ∨ orphaned.length = sg.shards.length then
    .ok { sg with shards := shards1, deletedAt := some now }
  else
    match reassignOrphans orphaned (eraseFreq id freqs0) shards1 with
    | .error e => .error e
    | .ok shards' => .ok { sg with shards := shards' }

/-- `Data.DeleteDataNode`: removes a node from the store, reassigning
ownership of any shards that would otherwise become orphaned. -/
def Data.deleteDataNode (data : Data) (id : Nat) (now : Int) :
    Except MetaError Data :=
  let nodes := data.dataNodes.filter (fun nd => decide (nd.id ≠ id))
  if nodes.length = data.dataNodes.length then .error .nodeNotFound
  else
    match mapExcept (fun (di : DatabaseInfo) =>
      Except.map (fun rps => { di with retentionPolicies := rps })
        (mapExcept (fun (rpi : RetentionPolicyInfo) =>
          Except.map (fun sgs => { rpi with shardGroups := sgs })
            (mapExcept (deleteNodeFromGroup id now) rpi.shardGroups))
          di.retentionPolicies)) data.databases with
    | .error e => .error e
    | .ok databases' => .ok { data with dataNodes := nodes, databases := databases' }

/-! ### Points-writer errors (package `coordinator` and collaborators) -/

/-- `models.ConsistencyLevel`. -/
inductive ConsistencyLevel where
  | any
  | one
  | quorum
  | all
deriving DecidableEq, Repr

/-- The error values observable on the write path.  `writeFailedWrap e` is
`fmt.Errorf("write failed: %v", err)`; `partialWriteDropped n` is
`tsdb.PartialWriteError` with `Dropped = n`; `other` stands for any further
error carried by a result.

Modelled from the spec: the hinted-handoff package (not under `src/`)
declares the two sentinel errors `ErrQueueBlocked` and
`ErrHintedHandoffQueueNotEmpty` as distinct errors (spec §6), so their
messages are distinct. -/
inductive WErr where
  | timeout
  | partialWrite
  | writeFailed
  | queueBlocked
  | hhQueueNotEmpty
  | shardNotFound
  | shardDeletion
  | partialWriteDropped (dropped : Nat)
  | writeFailedWrap (e : WErr)
  | other (msg : String)
deriving DecidableEq, Repr

/-- `error.Error()`: the message string of an error value.

Modelled from the spec: the sentinel messages are distinct; the literal texts
of the collaborator packages' messages are otherwise irrelevant. -/
def WErr.message : WErr → String
  | .timeout => "timeout"
  | .partialWrite => "partial write"
  | .writeFailed => "write failed"
  | .queueBlocked => "queue is blocked"
  | .hhQueueNotEmpty => "hinted handoff queue not empty"
  | .shardNotFound => "shard not found"
  | .shardDeletion => "shard is deleted"
  | .partialWriteDropped n => "partial write: dropped=" ++ toString n
  | .writeFailedWrap e => "write failed: " ++ e.message
  | .other msg => msg

/-! ### writeToShardWithContext -/

/-- The required number of owner acknowledgments for a consistency level
(`required := len(owners)`, then the `switch`). -/
def requiredAcks (consistency : ConsistencyLevel) (numOwners : Nat) : Nat :=
  match consistency with
  | .any => 1
  | .one => 1
  | .quorum => numOwners / 2 + 1
  | .all => numOwners

/-- The result-collection loop of `writeToShardWithContext` over the owner
results in arrival order (`none` = successful owner write): errors whose
message equals `ErrQueueBlocked`'s are skipped; other errors are recorded
(first one kept); a success returns `none` (nil) as soon as `wrote` reaches
`required`; after all results, `wrote > 0` yields `ErrPartialWrite`, a
recorded error is wrapped as "write failed", else `ErrWriteFailed`. -/
def writeToShardLoop (required : Nat) :
    List (Option WErr) → Nat → Option WErr → Option WErr
  | [], wrote, writeError =>
    if 0 < wrote then some .partialWrite
    else
      match writeError with
      | some e => some (.writeFailedWrap e)
      | none => some .writeFailed
  | r :: rs, wrote, writeError =>
    match r with
    | some e =>
      if e.message = WErr.queueBlocked.message then
        writeToShardLoop required rs wrote writeError
      else
        writeToShardLoop required rs wrote
          (match writeError with
           | none => some e
           | some e0 => some e0)
    | none =>
      if required ≤ wrote + 1 then none
      else writeToShardLoop required rs (wrote + 1) writeError

/-- The outcome of `writeToShardWithContext` (timeout and shutdown aside)
given the per-owner results in arrival order; `none` is a nil return. -/
def writeToShardResult (consistency : ConsistencyLevel)
    (ownerResults : List (Option WErr)) : Option WErr :=
  writeToShardLoop (requiredAcks consistency ownerResults.length) ownerResults 0 none

/-- The number of successful owner writes among the results. -/
def succCount (rs : List (Option WErr)) : Nat :=
  rs.count none

/-- The first error in arrival order that the loop records (message differs
from `ErrQueueBlocked`'s). -/
def firstSaved : List (Option WErr) → Option WErr
  | [] => none
  | none :: rs => firstSaved rs
  | some e :: rs =>
    if e.message = WErr.queueBlocked.message then firstSaved rs else some e

/-- The collaborator call results visible to one owner's write task. -/
structure OwnerEnv where
  selfID : Nat
  allowOutOfOrderWrites : Bool
  hhEmpty : Bool
  hhWrite : Option WErr
  shardWriterWrite : Option WErr
  isRetryable : Bool
  localWrite1 : Option WErr
  createShard : Option WErr
  localWrite2 : Option WErr
deriving DecidableEq, Repr

/-- The side-effecting calls an owner task can make, in order. -/
inductive OwnerAction where
  | localWrite
  | createShard
  | hhEnqueue
  | remoteWrite
deriving DecidableEq, Repr

/-- The per-owner goroutine of `writeToShardWithContext`: the trace of calls
made and the result delivered to the channel for this owner. -/
def ownerWrite (env : OwnerEnv) (ownerID : Nat)
    (consistency : ConsistencyLevel) : List OwnerAction × Option WErr :=
  if env.selfID = ownerID then
    match env.localWrite1 with
    | some e =>
      if e = .shardNotFound then
        match env.createShard with
        | some ce => ([.localWrite, .createShard], some ce)
        | none => ([.localWrite, .createShard, .localWrite], env.localWrite2)
      else ([.localWrite], some e)
    | none => ([.localWrite], none)
  else if env.allowOutOfOrderWrites = false ∧ env.hhEmpty = false then
    match env.hhWrite with
    | some hherr => ([.hhEnqueue], some hherr)
    | none => ([.hhEnqueue], some .hhQueueNotEmpty)
  else
    match env.shardWriterWrite with
    | none => ([.remoteWrite], none)
    | some e =>
      if env.isRetryable then
        match env.hhWrite with
        | some hherr => ([.remoteWrite, .hhEnqueue], some hherr)
        | none =>
          if consistency = .any then ([.remoteWrite, .hhEnqueue], none)
          else ([.remoteWrite, .hhEnqueue], some e)
      else ([.remoteWrite], some e)

/-! ### WritePointsPrivilegedWithContext (tail) -/

/-- The per-shard result loop: the first error received is returned. -/
def firstShardError : List (Option WErr) → Option WErr
  | [] => none
  | none :: rs => firstShardError rs
  | some e :: _ => some e

/-- The tail of `WritePointsPrivilegedWithContext` (timeout and shutdown
aside): a partial-write error is prepared when the mapping dropped points,
the first per-shard error is returned immediately, and the prepared error is
returned only after every shard write succeeded. -/
def writePointsFinish (droppedCount : Nat)
    (shardResults : List (Option WErr)) : Option WErr :=
  let prepared := if 0 < droppedCount then
      some (WErr.partialWriteDropped droppedCount) else none
  match firstShardError shardResults with
  | some e => some e
  | none => prepared

/-- The subscriber broadcast loop: a non-blocking send to every subscriber
channel; `true` means the channel can receive.  Returns (subWriteOK delta,
subWriteDrop delta); a full or nil channel only increments the drop count. -/
def subscriberBroadcast (subReady : List Bool) : Nat × Nat :=
  (subReady.count true, subReady.count false)

/-- The observable outcome of the tail of `WritePointsPrivilegedWithContext`:
the returned error together with the subscriber statistics deltas. -/
def writePointsOutcome (subReady : List Bool) (droppedCount : Nat)
    (shardResults : List (Option WErr)) : Option WErr × (Nat × Nat) :=
  (writePointsFinish droppedCount shardResults, subscriberBroadcast subReady)

/-! ### sgList and ShardGroupAt -/

/-- `coordinator.sgList`.  `earliest`/`latest` are `none` for the Go zero
time (their zero values). -/
structure sgList where
  items : List ShardGroupInfo
  needsSort : Bool
  earliest : Option Int
  latest : Option Int
deriving DecidableEq, Repr

/-- Go's `sort.Search` on the interval `[i, j)`, with explicit fuel (the
interval length shrinks at every step, so `j - i` steps always suffice):
binary search for the boundary of the predicate. -/
def sortSearchGo (f : Nat → Bool) : Nat → Nat → Nat → Nat
  | 0, i, _ => i
  | fuel + 1, i, j =>
    if i < j then
      if f ((i + j) / 2) then sortSearchGo f fuel i ((i + j) / 2)
      else sortSearchGo f fuel ((i + j) / 2 + 1) j
    else i

/-- Go's `sort.Search` on the interval `[i, j)`. -/
def sortSearch (f : Nat → Bool) (i j : Nat) : Nat :=
  sortSearchGo f (j - i) i j

/-- The overlap fallback of `ShardGroupAt`: `nil` when `t` is outside
`[earliest, latest]`, otherwise a linear scan with `Contains`. -/
def sgListFallback (items : List ShardGroupInfo) (l : sgList) (t : Int) :
    Option ShardGroupInfo :=
  if t < l.earliest.getD zeroTime ∨ l.latest.getD zeroTime < t then none
  else
    match items.findIdx? (fun g => g.Contains t) with
    | none => none
    | some j => some (items.getD j default)

/-- `sgList.ShardGroupAt`: sort if dirty, binary-search on `EndTime`, fall
back to the linear scan when the binary search misses. -/
def sgList.shardGroupAt (l : sgList) (t : Int) : Option ShardGroupInfo :=
  if l.items.length = 0 then none
  else
    let items := if l.needsSort then sortShardGroups l.items else l.items
    let idx := sortSearch (fun i => decide (t < (items.getD i default).endTime))
      0 items.length
    if idx = items.length ∨ t < (items.getD idx default).startTime then
      sgListFallback items l t
    else some (items.getD idx default)

/-- The procedure described by the specification for `ShardGroupAt`: identical
to `sgList.shardGroupAt` except that the search step looks for the smallest
index whose EFFECTIVE end time (`truncatedAt` when truncated) is after `t`. -/
def sgList.shardGroupAtSpec (l : sgList) (t : Int) : Option ShardGroupInfo :=
  if l.items.length = 0 then none
  else
    let items := if l.needsSort then sortShardGroups l.items else l.items
    match items.findIdx? (fun g => decide (t < g.effectiveEnd)) with
    | none => sgListFallback items l t
    | some i =>
      if t < (items.getD i default).startTime then sgListFallback items l t
      else some (items.getD i default)

/-- `sgList.Covers`. -/
def sgList.Covers (l : sgList) (t : Int) : Bool :=
  if l.items.length = 0 then false
  else (l.shardGroupAt t).isSome

/-- `sgList.Add`: append a group, mark the list dirty, and widen the
`[earliest, latest]` span. -/
def sgList.Add (l : sgList) (sgi : ShardGroupInfo) : sgList :=
  { items := l.items ++ [sgi],
    needsSort := true,
    earliest := (match l.earliest with
      | none => some sgi.startTime
      | some e => if sgi.startTime < e then some sgi.startTime else some e),
    latest := (match l.latest with
      | none => some sgi.endTime
      | some e => if e < sgi.endTime then some sgi.endTime else some e) }

/-! ### MapShards -/

/-- A point, reduced to the fields `MapShards` consumes: its timestamp and
its `HashID()`. -/
structure Point where
  time : Int
  hashID : Nat
deriving DecidableEq, Repr

/-- `ShardGroupInfo.ShardFor`. -/
def ShardGroupInfo.shardFor (sgi : ShardGroupInfo) (p : Point) : ShardInfo :=
  if sgi.shards.length = 1 then sgi.shards.getD 0 default
  else sgi.shards.getD (p.hashID % sgi.shards.length) default

/-- `coordinator.ShardMapping` (the `Points` and `Shards` maps are
association lists; `n` is irrelevant to the verified properties). -/
structure ShardMapping where
  assigned : List (Nat × Point)
  shards : List (Nat × ShardInfo)
  dropped : List Point
deriving DecidableEq, Repr

/-- `ShardMapping.MapPoint`. -/
def ShardMapping.mapPoint (m : ShardMapping) (sh : ShardInfo) (p : Point) :
    ShardMapping :=
  { m with assigned := m.assigned ++ [(sh.id, p)],
           shards := storeAssoc sh.id sh m.shards }

/-- The first loop of `MapShards`: points in range that are not yet covered
create a shard group through the meta client (`createSG`, threading its
state `σ`); a `nil` group is an error. -/
def buildSgList (createSG : σ → Int → σ × Except String (Option ShardGroupInfo))
    (min : Int) : List Point → σ → sgList → Except String (σ × sgList)
  | [], st, l => .ok (st, l)
  | p :: ps, st, l =>
    if p.time < min ∨ l.Covers p.time = true then buildSgList createSG min ps st l
    else
      match createSG st p.time with
      | (_, .error e) => .error e
      | (_, .ok none) => .error "nil shard group"
      | (st', .ok (some sg)) => buildSgList createSG min ps st' (l.Add sg)

/-- The second loop of `MapShards`: each point is assigned to a shard of the
group at its time, or dropped (incrementing the `writeDrop` statistic) when
no group is found. -/
def assignPoints : List Point → sgList → ShardMapping → Nat → ShardMapping × Nat
  | [], _, m, drops => (m, drops)
  | p :: ps, l, m, drops =>
    match l.shardGroupAt p.time with
    | none => assignPoints ps l { m with dropped := m.dropped ++ [p] } (drops + 1)
    | some sg => assignPoints ps l (m.mapPoint (sg.shardFor p) p) drops

/-- `PointsWriter.MapShards`: returns the mapping, the shard-group list it
was computed against, and the `writeDrop` statistic delta. -/
def mapShards (createSG : σ → Int → σ × Except String (Option ShardGroupInfo))
    (st : σ) (rpDuration : Int) (now : Int) (points : List Point) :
    Except String (ShardMapping × sgList × Nat) :=
  let min := if 0 < rpDuration then now - rpDuration else minNanoTime
  match buildSgList createSG min points st ⟨[], false, none, none⟩ with
  | .error e => .error e
  | .ok r =>
    .ok ((assignPoints points r.2 ⟨[], [], []⟩ 0).1, r.2,
         (assignPoints points r.2 ⟨[], [], []⟩ 0).2)

/-- Modelled from the spec: the meta client's `CreateShardGroup(db, rp, t)`
(§6, `MetaClient`) applies the metadata mutation `Data.CreateShardGroup` and
returns the shard group of the policy now covering `t`.  The client itself is
not under `src/`; this composes the two embedded `meta` operations. -/
def metaCreateShardGroup (database policy : String) (d : Data) (t : Int) :
    Data × Except String (Option ShardGroupInfo) :=
  match d.createShardGroup database policy t with
  | .error _ => (d, .error "create shard group failed")
  | .ok d' =>
    (d', .ok (match d'.retentionPolicy database policy with
              | .ok (some rpi) => rpi.shardGroupByTimestamp t
              | _ => none))

/-! ### Shape observations and concrete fixtures used by witnesses -/

/-- Everything in `Data` except the contents of the shard groups: used to
state that an operation modified nothing but one group's content. -/
def dataShape (d : Data) :=
  (d.index, d.dataNodes, d.maxShardGroupID, d.maxShardID,
    d.databases.map (fun di => (di.name, di.defaultRetentionPolicy,
      di.retentionPolicies.map (fun rp =>
        (rp.name, rp.replicaN, rp.duration, rp.shardGroupDuration,
          rp.shardGroups.length)))))

/-- A one-node, one-database fixture with an empty retention policy. -/
def dataFix1 : Data :=
  { index := 0,
    dataNodes := [⟨1, "h1", "t1"⟩],
    databases := [⟨"db", "rp", [⟨"rp", 1, 100, 10, []⟩]⟩],
    maxShardGroupID := 0,
    maxShardID := 0 }

/-- A four-node fixture whose policy has `ReplicaN = 2`. -/
def dataFix4r2 : Data :=
  { index := 0,
    dataNodes := [⟨1, "h1", "t1"⟩, ⟨2, "h2", "t2"⟩, ⟨3, "h3", "t3"⟩, ⟨4, "h4", "t4"⟩],
    databases := [⟨"db", "rp", [⟨"rp", 2, 100, 10, []⟩]⟩],
    maxShardGroupID := 0,
    maxShardID := 0 }

/-- A four-node fixture whose policy has `ReplicaN = 3`. -/
def dataFix4r3 : Data :=
  { index := 0,
    dataNodes := [⟨1, "h1", "t1"⟩, ⟨2, "h2", "t2"⟩, ⟨3, "h3", "t3"⟩, ⟨4, "h4", "t4"⟩],
    databases := [⟨"db", "rp", [⟨"rp", 3, 100, 10, []⟩]⟩],
    maxShardGroupID := 0,
    maxShardID := 0 }

/-- A three-node fixture with one shard group holding shards
`S1{N1,N2}, S2{N2,N3}, S3{N1,N3}` (the spec's orphan-rebalance scenario). -/
def dataFix3 : Data :=
  { index := 0,
    dataNodes := [⟨1, "h1", "t1"⟩, ⟨2, "h2", "t2"⟩, ⟨3, "h3", "t3"⟩],
    databases := [⟨"db", "rp",
      [⟨"rp", 2, 100, 10,
        [⟨1, 0, 10, none,
          [⟨1, [⟨1⟩, ⟨2⟩]⟩, ⟨2, [⟨2⟩, ⟨3⟩]⟩, ⟨3, [⟨1⟩, ⟨3⟩]⟩], none⟩]⟩]⟩],
    maxShardGroupID := 1,
    maxShardID := 3 }

/-- A fixture with two shard groups in one policy, the first of which holds
shards 1 and 2, the second shard 3. -/
def dataFix2g : Data :=
  { index := 0,
    dataNodes := [⟨1, "h1", "t1"⟩],
    databases := [⟨"db", "rp",
      [⟨"rp", 1, 100, 10,
        [⟨1, 0, 10, none, [⟨1, [⟨1⟩]⟩, ⟨2, [⟨1⟩]⟩], none⟩,
         ⟨2, 10, 20, none, [⟨3, [⟨1⟩]⟩], none⟩]⟩]⟩],
    maxShardGroupID := 2,
    maxShardID := 3 }

/-- The truncated-group list on which the binary search of `ShardGroupAt`
diverges from the specified effective-end search: group `A = [0,10)`
truncated at `2`, group `B = [2,10)`. -/
def sgListFix : sgList :=
  { items := [⟨1, 0, 10, none, [⟨1, [⟨1⟩]⟩], some 2⟩,
              ⟨2, 2, 10, none, [⟨2, [⟨1⟩]⟩], none⟩],
    needsSort := true,
    earliest := some 0,
    latest := some 10 }

/-- Points at times 6 and 4: with `now = 15` and an RP duration of 10, the
retention cutoff is 5, so the second point is pre-cutoff while the first
point's shard-group window `[0, 10)` covers both. -/
def ptsFix : List Point := [⟨6, 0⟩, ⟨4, 0⟩]

/-- A lease table holding one unexpired lease owned by node 7. -/
def leasesFix : Leases :=
  { m := [("lease-a", { name := "lease-a", expiration := 50, owner := 7 })],
    d := 30 }

/-- A two-group list with no truncation (binary search and the specified
effective-end search agree on it). -/
def sgListFix2 : sgList :=
  { items := [⟨1, 0, 10, none, [⟨1, [⟨1⟩]⟩], none⟩,
              ⟨2, 10, 20, none, [⟨2, [⟨1⟩]⟩], none⟩],
    needsSort := true,
    earliest := some 0,
    latest := some 20 }

/-- All `(shard id, owner node)` pairs present in `data`. -/
def createdPairs (d : Data) : List (Nat × Nat) :=
  d.allGroups.flatMap (fun g => g.shards.flatMap
    (fun s => s.owners.map (fun o => (s.id, o.nodeID))))

/-- A three-node fixture whose group holds a shard owned only by node 2
(orphaned when node 2 is deleted) next to a shard owned by nodes 1 and 3. -/
def dataFix3b : Data :=
  { index := 0,
    dataNodes := [⟨1, "h1", "t1"⟩, ⟨2, "h2", "t2"⟩, ⟨3, "h3", "t3"⟩],
    databases := [⟨"db", "rp",
      [⟨"rp", 2, 100, 10,
        [⟨1, 0, 10, none, [⟨1, [⟨2⟩]⟩, ⟨2, [⟨1⟩, ⟨3⟩]⟩], none⟩]⟩]⟩],
    maxShardGroupID := 1,
    maxShardID := 2 }

/-! ## Theorems -/

/-! ### Generic helper lemmas -/

theorem updateFirstOpt_eq_none_iff {α : Type _} (f : α → Option α) (l : List α) :
    updateFirstOpt f l = none ↔ ∀ x ∈ l, f x = none := by
  induction l with
  | nil => simp [updateFirstOpt]
  | cons x xs ih =>
    cases hfx : f x with
    | some y => simp [updateFirstOpt, hfx]
    | none => simp [updateFirstOpt, hfx, Option.map_eq_none', ih]

theorem updateFirstOpt_eq_some_ex {α : Type _} {f : α → Option α}
    {l l' : List α} (h : updateFirstOpt f l = some l') :
    ∃ pre x y post, l = pre ++ x :: post ∧ (∀ z ∈ pre, f z = none) ∧
      f x = some y ∧ l' = pre ++ y :: post := by
  induction l generalizing l' with
  | nil => simp [updateFirstOpt] at h
  | cons a as ih =>
    rw [updateFirstOpt] at h
    cases hfa : f a with
    | some y =>
      rw [hfa] at h
      refine ⟨[], a, y, as, by simp, by simp, hfa, ?_⟩
      simpa using h.symm
    | none =>
      rw [hfa] at h
      cases hrec : updateFirstOpt f as with
      | none => rw [hrec] at h; simp at h
      | some l'' =>
        rw [hrec] at h
        simp only [Option.map_some', Option.some.injEq] at h
        obtain ⟨pre, x, y, post, hsplit, hpre, hfx, hl''⟩ := ih hrec
        refine ⟨a :: pre, x, y, post, by simp [hsplit], ?_, hfx, by simp [← h, hl'']⟩
        intro z hz
        rcases List.mem_cons.mp hz with hz | hz
        · exact hz ▸ hfa
        · exact hpre z hz

/-! ### C9: lease acquisition -/

/-- C9: `Leases.Acquire(name, nodeID)` grants the lease (returns it with nil
error) exactly when the named lease is absent, present but expired, or
present and already owned by `nodeID`; every granting case sets the
expiration to `now + TTL` and the owner to `nodeID`; otherwise the existing
lease is returned unchanged (table untouched) together with the error
"another node has the lease". -/
theorem leases_acquire_spec (leases : Leases) (now : Int) (name : String)
    (nodeID : Nat) :
    (((leases.acquire now name nodeID).1.2 = none) ↔
      (lookupKey name leases.m = none ∨
        ∃ l, lookupKey name leases.m = some l ∧
          (now > l.expiration ∨ l.owner = nodeID)))
    ∧ ((leases.acquire now name nodeID).1.2 = none →
        (leases.acquire now name nodeID).1.1.expiration = now + leases.d ∧
        (leases.acquire now name nodeID).1.1.owner = nodeID)
    ∧ ((leases.acquire now name nodeID).1.2 ≠ none →
        ∃ l, lookupKey name leases.m = some l ∧
          (leases.acquire now name nodeID).1.1 = l ∧
          (leases.acquire now name nodeID).1.2 = some "another node has the lease" ∧
          (leases.acquire now name nodeID).2 = leases) := by
  unfold Leases.acquire
  cases hl : lookupKey name leases.m with
  | none => simp
  | some l =>
    by_cases hg : now > l.expiration ∨ l.owner = nodeID
    · simp [hg]
    · simp [hg]

/-! ### C10: DropShard -/

theorem dropShardSG_eq_none_iff (id : Nat) (now : Int) (sg : ShardGroupInfo) :
    dropShardSG id now sg = none ↔ ∀ s ∈ sg.shards, s.id ≠ id := by
  constructor
  · intro h s hs heq
    unfold dropShardSG at h
    cases hfi : sg.shards.findIdx? (fun s => decide (s.id = id)) with
    | none =>
      have := List.findIdx?_eq_none_iff.mp hfi s hs
      simp [heq] at this
    | some i => rw [hfi] at h; simp at h
  · intro hall
    unfold dropShardSG
    have hnone : sg.shards.findIdx? (fun s => decide (s.id = id)) = none :=
      List.findIdx?_eq_none_iff.mpr (fun s hs => by simp [hall s hs])
    rw [hnone]

theorem dropShardSG_eq_some_ex {id : Nat} {now : Int}
    {sg sg' : ShardGroupInfo} (h : dropShardSG id now sg = some sg') :
    ∃ i, sg.shards.findIdx? (fun s => decide (s.id = id)) = some i ∧
      sg' = { sg with
              shards := sg.shards.eraseIdx i,
              deletedAt := (if sg.shards.length = 1 then some now
                            else sg.deletedAt) } := by
  unfold dropShardSG at h
  cases hfi : sg.shards.findIdx? (fun s => decide (s.id = id)) with
  | none => rw [hfi] at h; exact absurd h (by simp)
  | some i =>
    rw [hfi] at h
    simp only [Option.some.injEq] at h
    exact ⟨i, rfl, h.symm⟩

theorem dropShardRP_eq_none_iff (id : Nat) (now : Int)
    (rpi : RetentionPolicyInfo) :
    dropShardRP id now rpi = none ↔
      ∀ g ∈ rpi.shardGroups, ∀ s ∈ g.shards, s.id ≠ id := by
  unfold dropShardRP
  rw [Option.map_eq_none', updateFirstOpt_eq_none_iff]
  constructor <;> intro h g hg
  · exact (dropShardSG_eq_none_iff id now g).mp (h g hg)
  · exact (dropShardSG_eq_none_iff id now g).mpr (h g hg)

theorem dropShardDB_eq_none_iff (id : Nat) (now : Int) (di : DatabaseInfo) :
    dropShardDB id now di = none ↔
      ∀ rpi ∈ di.retentionPolicies, ∀ g ∈ rpi.shardGroups,
        ∀ s ∈ g.shards, s.id ≠ id := by
  unfold dropShardDB
  rw [Option.map_eq_none', updateFirstOpt_eq_none_iff]
  constructor <;> intro h rpi hrpi
  · exact (dropShardRP_eq_none_iff id now rpi).mp (h rpi hrpi)
  · exact (dropShardRP_eq_none_iff id now rpi).mpr (h rpi hrpi)

/-- C10: `DropShard(id)` returns normally and leaves `Data` unchanged when no
group holds a shard with the id; otherwise exactly the first group (in
traversal order) holding the shard is modified: that shard (first occurrence)
is removed, and the group is tombstoned at `now` exactly when the removed
shard was the group's last one.  Everything else in `Data` (nodes, ids, the
database/policy structure and all other groups) is unchanged. -/
theorem dropShard_spec (data : Data) (id : Nat) (now : Int) :
    ((∀ g ∈ data.allGroups, ∀ s ∈ g.shards, s.id ≠ id) →
      data.dropShard id now = data)
    ∧ ((∃ g ∈ data.allGroups, ∃ s ∈ g.shards, s.id = id) →
        dataShape (data.dropShard id now) = dataShape data ∧
        ∃ pre g g' post i,
          data.allGroups = pre ++ g :: post ∧
          (∀ g0 ∈ pre, ∀ s ∈ g0.shards, s.id ≠ id) ∧
          (∃ s ∈ g.shards, s.id = id) ∧
          g.shards.findIdx? (fun s => decide (s.id = id)) = some i ∧
          g' = { g with
                 shards := g.shards.eraseIdx i,
                 deletedAt := (if g.shards.length = 1 then some now
                               else g.deletedAt) } ∧
          (data.dropShard id now).allGroups = pre ++ g' :: post) := by
  constructor
  · intro hclean
    unfold Data.dropShard
    have hnone : updateFirstOpt (dropShardDB id now) data.databases = none := by
      rw [updateFirstOpt_eq_none_iff]
      intro di hdi
      rw [dropShardDB_eq_none_iff]
      intro rpi hrpi g hg
      refine hclean g ?_
      simp only [Data.allGroups, List.mem_flatMap]
      exact ⟨di, hdi, rpi, hrpi, hg⟩
    rw [hnone]
    rfl
  · intro hex
    obtain ⟨g0, hg0, s0, hs0, hseq⟩ := hex
    cases hupd : updateFirstOpt (dropShardDB id now) data.databases with
    | none =>
      exfalso
      have hall := (updateFirstOpt_eq_none_iff _ _).mp hupd
      simp only [Data.allGroups, List.mem_flatMap] at hg0
      obtain ⟨di0, hdi0, rpi0, hrpi0, hgmem⟩ := hg0
      exact (dropShardDB_eq_none_iff id now di0).mp (hall di0 hdi0)
        rpi0 hrpi0 g0 hgmem s0 hs0 hseq
    | some dbs' =>
      have hdrop : data.dropShard id now = { data with databases := dbs' } := by
        unfold Data.dropShard
        rw [hupd]
        rfl
      obtain ⟨dpre, db, db', dpost, hdbsplit, hdpre, hdbsome, hdbs'⟩ :=
        updateFirstOpt_eq_some_ex hupd
      unfold dropShardDB at hdbsome
      obtain ⟨rps', hrpssome, hdb'⟩ := Option.map_eq_some'.mp hdbsome
      obtain ⟨rpre, rp, rp', rpost, hrpsplit, hrpre, hrpsome, hrps'⟩ :=
        updateFirstOpt_eq_some_ex hrpssome
      unfold dropShardRP at hrpsome
      obtain ⟨sgs', hsgssome, hrp'⟩ := Option.map_eq_some'.mp hrpsome
      obtain ⟨spre, g, g', spost, hsgsplit, hspre, hsgsome, hsgs'⟩ :=
        updateFirstOpt_eq_some_ex hsgssome
      obtain ⟨i, hfi, hg'⟩ := dropShardSG_eq_some_ex hsgsome
      have hgmem : ∃ s ∈ g.shards, s.id = id := by
        rw [List.findIdx?_eq_some_iff_findIdx_eq] at hfi
        obtain ⟨hlt, hfieq⟩ := hfi
        subst hfieq
        refine ⟨g.shards.get ⟨List.findIdx (fun s => decide (s.id = id)) g.shards,
          hlt⟩, List.get_mem _ _ _, ?_⟩
        have hp := @List.findIdx_getElem _ (fun s => decide (s.id = id))
          g.shards hlt
        simpa using hp
      subst hg'
      subst hdb'
      subst hrp'
      subst hdbs'
      subst hrps'
      subst hsgs'
      refine ⟨?_, dpre.flatMap (fun di => di.retentionPolicies.flatMap
          (fun rpi => rpi.shardGroups)) ++
          ((rpre.flatMap (fun rpi => rpi.shardGroups)) ++ spre), g,
          { g with
            shards := g.shards.eraseIdx i,
            deletedAt := (if g.shards.length = 1 then some now
                          else g.deletedAt) },
          spost ++ ((rpost.flatMap (fun rpi => rpi.shardGroups)) ++
          dpost.flatMap (fun di => di.retentionPolicies.flatMap
            (fun rpi => rpi.shardGroups))), i, ?_, ?_, hgmem, hfi, rfl, ?_⟩
      · rw [hdrop]
        unfold dataShape
        simp [hdbsplit, hrpsplit, hsgsplit, List.length_append]
      · unfold Data.allGroups
        rw [hdbsplit, List.flatMap_append, List.flatMap_cons, hrpsplit,
          List.flatMap_append, List.flatMap_cons, hsgsplit]
        simp [List.append_assoc]
      · intro gx hgx
        simp only [List.mem_append, List.mem_flatMap] at hgx
        rcases hgx with (⟨dix, hdix, rpix, hrpix, hgmemx⟩ | (⟨rpix, hrpix, hgmemx⟩ | hgx))
        · exact (dropShardDB_eq_none_iff id now dix).mp (hdpre dix hdix)
            rpix hrpix gx hgmemx
        · exact (dropShardRP_eq_none_iff id now rpix).mp (hrpre rpix hrpix)
            gx hgmemx
        · exact (dropShardSG_eq_none_iff id now gx).mp (hspre gx hgx)
      · rw [hdrop]
        unfold Data.allGroups
        simp [List.flatMap_append, List.flatMap_cons, List.append_assoc,
          List.cons_append]

theorem leases_acquire_spec_witness :
    (((leasesFix.acquire 100 "lease-a" 7).1.2 = none) ↔
      (lookupKey "lease-a" leasesFix.m = none ∨
        ∃ l, lookupKey "lease-a" leasesFix.m = some l ∧
          (100 > l.expiration ∨ l.owner = 7)))
    ∧ (((leasesFix.acquire 100 "lease-a" 7).1.2 = none →
        (leasesFix.acquire 100 "lease-a" 7).1.1.expiration = 100 + leasesFix.d ∧
        (leasesFix.acquire 100 "lease-a" 7).1.1.owner = 7))
    ∧ ((leasesFix.acquire 100 "lease-a" 7).1.2 ≠ none →
        ∃ l, lookupKey "lease-a" leasesFix.m = some l ∧
          (leasesFix.acquire 100 "lease-a" 7).1.1 = l ∧
          (leasesFix.acquire 100 "lease-a" 7).1.2 = some "another node has the lease" ∧
          (leasesFix.acquire 100 "lease-a" 7).2 = leasesFix) :=
  leases_acquire_spec leasesFix 100 "lease-a" 7

theorem dropShard_spec_witness :
    dataShape (dataFix2g.dropShard 3 99) = dataShape dataFix2g ∧
    ∃ pre g g' post i,
      dataFix2g.allGroups = pre ++ g :: post ∧
      (∀ g0 ∈ pre, ∀ s ∈ g0.shards, s.id ≠ 3) ∧
      (∃ s ∈ g.shards, s.id = 3) ∧
      g.shards.findIdx? (fun s => decide (s.id = 3)) = some i ∧
      g' = { g with
             shards := g.shards.eraseIdx i,
             deletedAt := (if g.shards.length = 1 then some 99
                           else g.deletedAt) } ∧
      (dataFix2g.dropShard 3 99).allGroups = pre ++ g' :: post :=
  (dropShard_spec dataFix2g 3 99).2 (by decide)

/-! ### C2, C7, C8: the write tally and the write-points tail -/

theorem writeToShardLoop_characterization (rs : List (Option WErr)) :
    ∀ (req wrote : Nat) (werr : Option WErr), wrote < req →
      writeToShardLoop req rs wrote werr =
        (if req ≤ wrote + succCount rs then none
         else if 0 < wrote + succCount rs then some .partialWrite
         else
           match werr <|> firstSaved rs with
           | some e => some (.writeFailedWrap e)
           | none => some .writeFailed) := by
  induction rs with
  | nil =>
    intro req wrote werr hlt
    have h1 : ¬ req ≤ wrote + succCount ([] : List (Option WErr)) := by
      simp only [succCount, List.count_nil, Nat.add_zero]
      omega
    rw [if_neg h1]
    simp only [succCount, List.count_nil, Nat.add_zero, firstSaved,
      writeToShardLoop]
    by_cases hw : 0 < wrote
    · rw [if_pos hw, if_pos hw]
    · rw [if_neg hw, if_neg hw]
      cases werr <;> rfl
  | cons r rs ih =>
    intro req wrote werr hlt
    cases r with
    | some e =>
      have hsucc : succCount (some e :: rs) = succCount rs := by
        simp [succCount]
      by_cases hmsg : e.message = WErr.queueBlocked.message
      · have hsaved : firstSaved (some e :: rs) = firstSaved rs := by
          simp [firstSaved, if_pos hmsg]
        simp only [writeToShardLoop, if_pos hmsg]
        rw [ih req wrote werr hlt, hsucc, hsaved]
      · have hsaved : firstSaved (some e :: rs) = some e := by
          simp [firstSaved, if_neg hmsg]
        simp only [writeToShardLoop, if_neg hmsg]
        rw [hsucc, hsaved]
        cases werr with
        | none =>
          rw [ih req wrote (some e) hlt]
          simp
        | some e0 =>
          rw [ih req wrote (some e0) hlt]
          simp
    | none =>
      have hsucc : succCount (none :: rs) = succCount rs + 1 := by
        simp [succCount]
      have hsaved : firstSaved (none :: rs) = firstSaved rs := by
        simp [firstSaved]
      rw [hsucc, hsaved]
      simp only [writeToShardLoop]
      by_cases hreq : req ≤ wrote + 1
      · have h2 : req ≤ wrote + (succCount rs + 1) := by omega
        rw [if_pos hreq, if_pos h2]
      · rw [if_neg hreq, ih req (wrote + 1) werr (by omega)]
        by_cases hfin : req ≤ wrote + (succCount rs + 1)
        · have hL : req ≤ wrote + 1 + succCount rs := by omega
          rw [if_pos hL, if_pos hfin]
        · have hL : ¬ req ≤ wrote + 1 + succCount rs := by omega
          have hLp : 0 < wrote + 1 + succCount rs := by omega
          have hRp : 0 < wrote + (succCount rs + 1) := by omega
          rw [if_neg hL, if_pos hLp, if_neg hfin, if_pos hRp]

/-- C2: the required acknowledgment count is 1 for Any/One,
`⌊owners/2⌋ + 1` for Quorum and `owners` for All; the loop returns nil
exactly when (and as soon as) the successes reach `required`; after all
owners reported it returns `ErrPartialWrite` when `0 < wrote < required`,
the first recorded error wrapped as "write failed" when `wrote = 0`, and
`ErrWriteFailed` when `wrote = 0` and no error was recorded. -/
theorem writeToShard_consistency_spec :
    (∀ n : Nat, requiredAcks .any n = 1 ∧ requiredAcks .one n = 1 ∧
      requiredAcks .quorum n = n / 2 + 1 ∧ requiredAcks .all n = n)
    ∧ (∀ (consistency : ConsistencyLevel) (rs : List (Option WErr)),
        1 ≤ requiredAcks consistency rs.length →
        (writeToShardResult consistency rs = none ↔
          requiredAcks consistency rs.length ≤ succCount rs))
    ∧ (∀ (pre post : List (Option WErr)) (req : Nat), 1 ≤ req →
        req ≤ succCount pre →
        writeToShardLoop req (pre ++ post) 0 none = none)
    ∧ (∀ (consistency : ConsistencyLevel) (rs : List (Option WErr)),
        succCount rs < requiredAcks consistency rs.length →
        (0 < succCount rs →
          writeToShardResult consistency rs = some .partialWrite)
        ∧ (succCount rs = 0 →
          writeToShardResult consistency rs =
            (match firstSaved rs with
             | some e => some (.writeFailedWrap e)
             | none => some .writeFailed))) := by
  refine ⟨fun n => ⟨rfl, rfl, rfl, rfl⟩, ?_, ?_, ?_⟩
  · intro consistency rs hreq
    unfold writeToShardResult
    rw [writeToShardLoop_characterization rs _ 0 none (by omega)]
    by_cases hle : requiredAcks consistency rs.length ≤ succCount rs
    · have h0 : requiredAcks consistency rs.length ≤ 0 + succCount rs := by omega
      rw [if_pos h0]
      simp [hle]
    · have h0 : ¬ requiredAcks consistency rs.length ≤ 0 + succCount rs := by
        omega
      rw [if_neg h0]
      constructor
      · intro h
        by_cases hp : 0 < 0 + succCount rs
        · rw [if_pos hp] at h
          exact absurd h (by simp)
        · rw [if_neg hp] at h
          cases hfs : firstSaved rs <;> rw [hfs] at h <;> simp at h
      · intro h
        exact absurd h hle
  · intro pre post req hreq hpre
    rw [writeToShardLoop_characterization _ _ 0 none (by omega)]
    have hmono : succCount pre ≤ succCount (pre ++ post) := by
      simp [succCount, List.count_append]
    have h0 : req ≤ 0 + succCount (pre ++ post) := by omega
    rw [if_pos h0]
  · intro consistency rs hlt
    constructor
    · intro h0
      unfold writeToShardResult
      rw [writeToShardLoop_characterization rs _ 0 none (by omega)]
      have hno : ¬ requiredAcks consistency rs.length ≤ 0 + succCount rs := by
        omega
      have hp : 0 < 0 + succCount rs := by omega
      rw [if_neg hno, if_pos hp]
    · intro h0
      unfold writeToShardResult
      rw [writeToShardLoop_characterization rs _ 0 none (by omega)]
      have hno : ¬ requiredAcks consistency rs.length ≤ 0 + succCount rs := by
        omega
      have hp : ¬ 0 < 0 + succCount rs := by omega
      rw [if_neg hno, if_neg hp]
      rfl

theorem writeToShard_consistency_spec_witness :
    1 ≤ requiredAcks .quorum ([none, some (.other "conn refused"), none] :
      List (Option WErr)).length ∧
    writeToShardResult .quorum [none, some (.other "conn refused"), none] = none :=
  ⟨by decide, (writeToShard_consistency_spec.2.1 .quorum
    [none, some (.other "conn refused"), none] (by decide)).mpr (by decide)⟩

/-- C7 (amended): with out-of-order writes disallowed and a non-empty
hinted-handoff queue for the owner, the owner task bypasses the direct remote
write and only enqueues; on enqueue success its result is the queue-not-empty
sentinel.  In the collection loop that error never counts toward `wrote`, but
(unlike `ErrQueueBlocked`) it IS recorded as the first error; it is not
immediately fatal: the shard write still returns nil once enough other owners
succeed. -/
theorem hh_bypass_spec :
    (∀ (env : OwnerEnv) (ownerID : Nat) (c : ConsistencyLevel),
      env.selfID ≠ ownerID → env.allowOutOfOrderWrites = false →
      env.hhEmpty = false →
      (ownerWrite env ownerID c).1 = [.hhEnqueue] ∧
      (env.hhWrite = none →
        (ownerWrite env ownerID c).2 = some .hhQueueNotEmpty))
    ∧ (∀ (req : Nat) (rs : List (Option WErr)) (wrote : Nat)
        (werr : Option WErr),
        writeToShardLoop req (some .hhQueueNotEmpty :: rs) wrote werr =
          writeToShardLoop req rs wrote (werr <|> some .hhQueueNotEmpty))
    ∧ (∀ (req : Nat) (rs : List (Option WErr)), 1 ≤ req →
        req ≤ succCount rs →
        writeToShardLoop req (some .hhQueueNotEmpty :: rs) 0 none = none) := by
  refine ⟨?_, ?_, ?_⟩
  · intro env ownerID c hself hooo hempty
    unfold ownerWrite
    rw [if_neg hself]
    rw [if_pos (by exact ⟨hooo, hempty⟩)]
    cases hw : env.hhWrite with
    | some hherr => exact ⟨rfl, fun h => absurd h (by simp)⟩
    | none => exact ⟨rfl, fun _ => rfl⟩
  · intro req rs wrote werr
    simp only [writeToShardLoop]
    have hmsg : ¬ (WErr.hhQueueNotEmpty.message = WErr.queueBlocked.message) := by
      decide
    rw [if_neg hmsg]
    cases werr <;> rfl
  · intro req rs hreq hsucc
    rw [writeToShardLoop_characterization _ _ 0 none (by omega)]
    have hs : succCount (some WErr.hhQueueNotEmpty :: rs) = succCount rs := by
      simp [succCount]
    have h0 : req ≤ 0 + succCount (some WErr.hhQueueNotEmpty :: rs) := by
      rw [hs]; omega
    rw [if_pos h0]

theorem hh_bypass_spec_witness :
    (ownerWrite ⟨1, false, false, none, none, false, none, none, none⟩ 2 .one).1 =
      [.hhEnqueue] ∧
    (ownerWrite ⟨1, false, false, none, none, false, none, none, none⟩ 2 .one).2 =
      some .hhQueueNotEmpty :=
  ⟨(hh_bypass_spec.1 ⟨1, false, false, none, none, false, none, none, none⟩ 2 .one
      (by decide) rfl rfl).1,
   (hh_bypass_spec.1 ⟨1, false, false, none, none, false, none, none, none⟩ 2 .one
      (by decide) rfl rfl).2 rfl⟩

/-- C7, counterexample to the claim as stated: the queue-not-empty sentinel is
NOT "skipped without being saved as the first error".  With a single owner in
the bypass situation (consistency One), the loop records the sentinel and the
shard write returns it wrapped as "write failed"; had the sentinel been
skipped and unsaved, the result would have been the bare `ErrWriteFailed`. -/
theorem hh_sentinel_saved_counterexample :
    writeToShardResult .one [some .hhQueueNotEmpty] =
      some (.writeFailedWrap .hhQueueNotEmpty) ∧
    writeToShardResult .one [some .hhQueueNotEmpty] ≠ some .writeFailed ∧
    firstSaved [some .hhQueueNotEmpty] = some .hhQueueNotEmpty := by
  decide

/-- C8: the tail of `WritePointsPrivilegedWithContext` returns the first
per-shard error received; the dropped-points partial-write error is returned
only when every shard write succeeded; subscriber sends affect only the
subscriber statistics, never the returned error. -/
theorem writePoints_failfast_spec :
    (∀ (dc : Nat) (pre post : List (Option WErr)) (e : WErr),
      (∀ r ∈ pre, r = none) →
      writePointsFinish dc (pre ++ some e :: post) = some e)
    ∧ (∀ (dc : Nat) (rs : List (Option WErr)),
        (∀ r ∈ rs, r = none) →
        writePointsFinish dc rs =
          (if 0 < dc then some (.partialWriteDropped dc) else none))
    ∧ (∀ (s1 s2 : List Bool) (dc : Nat) (rs : List (Option WErr)),
        (writePointsOutcome s1 dc rs).1 = (writePointsOutcome s2 dc rs).1)
    ∧ (∀ (s : List Bool) (dc : Nat) (rs : List (Option WErr)),
        (writePointsOutcome s dc rs).2 = (s.count true, s.count false)) := by
  have hfirst : ∀ (pre : List (Option WErr)), (∀ r ∈ pre, r = none) →
      ∀ (post : List (Option WErr)) (e : WErr),
      firstShardError (pre ++ some e :: post) = some e := by
    intro pre hpre
    induction pre with
    | nil => intro post e; rfl
    | cons r rs ih =>
      intro post e
      have hr : r = none := hpre r (by simp)
      subst hr
      simp only [List.cons_append, firstShardError]
      exact ih (fun r hr => hpre r (by simp [hr])) post e
  have hnone : ∀ (rs : List (Option WErr)), (∀ r ∈ rs, r = none) →
      firstShardError rs = none := by
    intro rs hrs
    induction rs with
    | nil => rfl
    | cons r rs ih =>
      have hr : r = none := hrs r (by simp)
      subst hr
      simp only [firstShardError]
      exact ih (fun r hr => hrs r (by simp [hr]))
  refine ⟨?_, ?_, fun s1 s2 dc rs => rfl, fun s dc rs => rfl⟩
  · intro dc pre post e hpre
    unfold writePointsFinish
    rw [hfirst pre hpre post e]
  · intro dc rs hrs
    unfold writePointsFinish
    rw [hnone rs hrs]

theorem writePoints_failfast_spec_witness :
    writePointsFinish 5 [none, some (.other "disk full"), none] =
      some (.other "disk full") :=
  writePoints_failfast_spec.1 5 [none] [none] (.other "disk full")
    (by intro r hr; simpa using hr)

/-! ### C6: sgList.ShardGroupAt -/

theorem sortSearchGo_boundary (f : Nat → Bool) :
    ∀ (fuel i j b : Nat), j - i ≤ fuel → i ≤ b → b ≤ j →
      (∀ k, i ≤ k → k < b → f k = false) →
      (∀ k, b ≤ k → k < j → f k = true) →
      sortSearchGo f fuel i j = b := by
  intro fuel
  induction fuel with
  | zero =>
    intro i j b hf hib hbj _ _
    simp only [sortSearchGo]
    omega
  | succ fuel ih =>
    intro i j b hf hib hbj hfalse htrue
    simp only [sortSearchGo]
    by_cases hij : i < j
    · rw [if_pos hij]
      by_cases hmid : f ((i + j) / 2) = true
      · rw [if_pos hmid]
        have hbm : b ≤ (i + j) / 2 := by
          by_contra hc
          push_neg at hc
          have hfm := hfalse ((i + j) / 2) (by omega) (by omega)
          simp [hfm] at hmid
        exact ih i ((i + j) / 2) b (by omega) hib hbm hfalse
          (fun k hk1 hk2 => htrue k hk1 (by omega))
      · rw [if_neg hmid]
        have hmb : (i + j) / 2 + 1 ≤ b := by
          by_contra hc
          push_neg at hc
          exact hmid (htrue ((i + j) / 2) (by omega) (by omega))
        exact ih ((i + j) / 2 + 1) j b (by omega) hmb hbj
          (fun k hk1 hk2 => hfalse k (by omega) hk2) htrue
    · rw [if_neg hij]
      omega

theorem sortSearch_boundary (f : Nat → Bool) (i j b : Nat) (hib : i ≤ b)
    (hbj : b ≤ j) (hfalse : ∀ k, i ≤ k → k < b → f k = false)
    (htrue : ∀ k, b ≤ k → k < j → f k = true) :
    sortSearch f i j = b :=
  sortSearchGo_boundary f (j - i) i j b le_rfl hib hbj hfalse htrue

theorem findIdx?_congr_pred {α : Type _} {p q : α → Bool} (l : List α)
    (h : ∀ x ∈ l, p x = q x) :
    ∀ s : Nat, l.findIdx? p s = l.findIdx? q s := by
  induction l with
  | nil => intro s; rfl
  | cons x xs ih =>
    intro s
    have hx : p x = q x := h x (by simp)
    simp only [List.findIdx?_cons, hx]
    by_cases hq : q x = true
    · rw [if_pos hq, if_pos hq]
    · rw [if_neg hq, if_neg hq, ih (fun y hy => h y (by simp [hy]))]

/-- C6 (amended): provided no group in the list is truncated (and the list is
dirty, as every list produced by `Add` is), `ShardGroupAt` behaves exactly as
the claim describes: sort by (effective end, start), binary-search for the
smallest index whose end time is after `t`, and fall back to the linear
`Contains` scan within `[earliest, latest]`, else nil.  (With truncated
groups present, the code's binary search reads `EndTime` while the sort key
is `TruncatedAt`, and the outcome can differ from the claim's description;
see the counterexample.) -/
theorem shardGroupAt_eq_spec_of_no_truncation (l : sgList) (t : Int)
    (htr : ∀ g ∈ l.items, g.truncatedAt = none)
    (hdirty : l.needsSort = true) :
    l.shardGroupAt t = l.shardGroupAtSpec t := by
  simp only [sgList.shardGroupAt, sgList.shardGroupAtSpec, hdirty, if_true]
  by_cases hlen : l.items.length = 0
  · rw [if_pos hlen, if_pos hlen]
  · rw [if_neg hlen, if_neg hlen]
    have hperm : (sortShardGroups l.items).Perm l.items :=
      List.perm_insertionSort _ _
    have htr' : ∀ g ∈ sortShardGroups l.items, g.truncatedAt = none :=
      fun g hg => htr g (hperm.subset hg)
    have hsorted : List.Pairwise sgLe (sortShardGroups l.items) :=
      List.sorted_insertionSort sgLe l.items
    have hpred : (sortShardGroups l.items).findIdx?
        (fun g => decide (t < g.effectiveEnd)) =
        (sortShardGroups l.items).findIdx? (fun g => decide (t < g.endTime)) :=
      findIdx?_congr_pred _ (fun g hg => by
        simp [ShardGroupInfo.effectiveEnd, htr' g hg]) 0
    rw [hpred]
    have hmono : ∀ (a b : Nat) (ha : a < (sortShardGroups l.items).length)
        (hb : b < (sortShardGroups l.items).length), a ≤ b →
        t < ((sortShardGroups l.items).getD a default).endTime →
        t < ((sortShardGroups l.items).getD b default).endTime := by
      intro a b ha hb hab hta
      rcases Nat.eq_or_lt_of_le hab with heq | hlt
      · subst heq; exact hta
      · have hle := List.pairwise_iff_get.mp hsorted ⟨a, ha⟩ ⟨b, hb⟩ hlt
        rw [List.getD_eq_getElem _ _ ha] at hta
        rw [List.getD_eq_getElem _ _ hb]
        have hta' : (sortShardGroups l.items)[a].truncatedAt = none :=
          htr' _ (List.getElem_mem ha)
        have htb' : (sortShardGroups l.items)[b].truncatedAt = none :=
          htr' _ (List.getElem_mem hb)
        unfold sgLe at hle
        simp only [List.get_eq_getElem, ShardGroupInfo.effectiveEnd, hta', htb',
          Option.getD_none] at hle
        rcases hle with h | ⟨h, _⟩
        · exact hta.trans h
        · exact h ▸ hta
    cases hfind : (sortShardGroups l.items).findIdx?
        (fun g => decide (t < g.endTime)) with
    | none =>
      have hall := List.findIdx?_eq_none_iff.mp hfind
      have hss : sortSearch
          (fun i => decide (t < ((sortShardGroups l.items).getD i default).endTime))
          0 (sortShardGroups l.items).length = (sortShardGroups l.items).length := by
        refine sortSearch_boundary _ 0 _ _ (Nat.zero_le _) le_rfl ?_
          (fun k hk1 hk2 => absurd hk2 (by omega))
        intro k _ hk
        rw [List.getD_eq_getElem _ _ hk]
        exact hall _ (List.getElem_mem hk)
      rw [hss, if_pos (Or.inl rfl)]
    | some i =>
      have hii := List.findIdx?_eq_some_iff_findIdx_eq.mp hfind
      obtain ⟨hilt, hidx⟩ := hii
      have hss : sortSearch
          (fun k => decide (t < ((sortShardGroups l.items).getD k default).endTime))
          0 (sortShardGroups l.items).length = i := by
        refine sortSearch_boundary _ 0 _ i (Nat.zero_le _) (le_of_lt hilt) ?_ ?_
        · intro k _ hk
          have hklt : k < (sortShardGroups l.items).length := by omega
          rw [List.getD_eq_getElem _ _ hklt]
          exact List.not_of_lt_findIdx (hidx ▸ hk)
        · intro k hk1 hk2
          have hfi : t < ((sortShardGroups l.items).getD i default).endTime := by
            rw [List.getD_eq_getElem _ _ hilt]
            have := @List.findIdx_getElem _ (fun g => decide (t < g.endTime))
              (sortShardGroups l.items) (hidx ▸ hilt)
            simp only [decide_eq_true_eq] at this
            simpa [hidx] using this
          have := hmono i k hilt hk2 hk1 hfi
          simpa using this
      rw [hss]
      simp only []
      have hin : ¬ (i = (sortShardGroups l.items).length) := by omega
      by_cases hstart : t < ((sortShardGroups l.items).getD i default).startTime
      · rw [if_pos (Or.inr hstart), if_pos hstart]
      · rw [if_neg (by push_neg; exact ⟨hin, not_lt.mp hstart⟩), if_neg hstart]

theorem shardGroupAt_eq_spec_witness :
    sgListFix2.shardGroupAt 12 = sgListFix2.shardGroupAtSpec 12 :=
  shardGroupAt_eq_spec_of_no_truncation sgListFix2 12 (by decide) rfl

/-- C6, counterexample to the claim as stated: on a list holding a truncated
group `A = [0,10)` (truncated at 2) and a group `B = [2,10)`, at `t = 5` the
code returns `A` (its binary search reads `EndTime = 10 > 5` at index 0 of
the effective-end-sorted order), while the described procedure (smallest
index with effective end after `t`) returns `B`. -/
theorem shardGroupAt_effective_end_counterexample :
    sgListFix.shardGroupAt 5 =
      some ⟨1, 0, 10, none, [⟨1, [⟨1⟩]⟩], some 2⟩ ∧
    sgListFix.shardGroupAtSpec 5 =
      some ⟨2, 2, 10, none, [⟨2, [⟨1⟩]⟩], none⟩ ∧
    sgListFix.shardGroupAt 5 ≠ sgListFix.shardGroupAtSpec 5 := by
  decide

/-! ### C5: MapShards retention dropping -/

theorem assignPoints_accum (l : sgList) :
    ∀ (points : List Point) (m0 : ShardMapping) (d0 : Nat),
      (assignPoints points l m0 d0).1.dropped =
        m0.dropped ++ points.filter (fun p => (l.shardGroupAt p.time).isNone)
      ∧ (assignPoints points l m0 d0).2 =
        d0 + (points.filter (fun p => (l.shardGroupAt p.time).isNone)).length
      ∧ (∀ q ∈ (assignPoints points l m0 d0).1.assigned,
          q ∈ m0.assigned ∨
            ∃ p ∈ points, (l.shardGroupAt p.time).isSome ∧ q.2 = p) := by
  intro points
  induction points with
  | nil =>
    intro m0 d0
    simp [assignPoints]
  | cons p ps ih =>
    intro m0 d0
    cases hsg : l.shardGroupAt p.time with
    | none =>
      have hfil : (p :: ps).filter (fun p => (l.shardGroupAt p.time).isNone) =
          p :: ps.filter (fun p => (l.shardGroupAt p.time).isNone) := by
        simp [List.filter_cons, hsg]
      simp only [assignPoints, hsg]
      obtain ⟨ih1, ih2, ih3⟩ := ih { m0 with dropped := m0.dropped ++ [p] } (d0 + 1)
      refine ⟨?_, ?_, ?_⟩
      · rw [ih1, hfil]
        simp
      · rw [ih2, hfil]
        simp [Nat.add_assoc, Nat.add_comm 1]
      · intro q hq
        rcases ih3 q hq with hq0 | ⟨p', hp', hsome, hqp⟩
        · exact Or.inl hq0
        · exact Or.inr ⟨p', by simp [hp'], hsome, hqp⟩
    | some sg =>
      have hfil : (p :: ps).filter (fun p => (l.shardGroupAt p.time).isNone) =
          ps.filter (fun p => (l.shardGroupAt p.time).isNone) := by
        simp [List.filter_cons, hsg]
      simp only [assignPoints, hsg]
      obtain ⟨ih1, ih2, ih3⟩ := ih (m0.mapPoint (sg.shardFor p) p) d0
      refine ⟨?_, ?_, ?_⟩
      · rw [ih1, hfil]
        rfl
      · rw [ih2, hfil]
      · intro q hq
        rcases ih3 q hq with hq0 | ⟨p', hp', hsome, hqp⟩
        · unfold ShardMapping.mapPoint at hq0
          simp only [List.mem_append, List.mem_singleton] at hq0
          rcases hq0 with hq0 | hq0
          · exact Or.inl hq0
          · exact Or.inr ⟨p, by simp, by simp [hsg], by simp [hq0]⟩
        · exact Or.inr ⟨p', by simp [hp'], hsome, hqp⟩

/-- C5 (amended): in `MapShards` with `min = now - rp.Duration` (or
`MinNanoTime` for an infinite policy), a point before `min` never triggers
shard-group creation; a point ends up in `Dropped` (and is counted in the
`writeDrop` statistic) exactly when the constructed shard-group list has no
group at its time — so a pre-`min` point IS nonetheless assigned when a group
created for an in-range point happens to cover its time. -/
theorem mapShards_drop_spec {σ : Type _}
    (createSG : σ → Int → σ × Except String (Option ShardGroupInfo))
    (st : σ) (rpDuration : Int) (now : Int) (points : List Point)
    (m : ShardMapping) (l : sgList) (drops : Nat)
    (hok : mapShards createSG st rpDuration now points = .ok (m, l, drops)) :
    (∀ p ∈ points, (p ∈ m.dropped ↔ l.shardGroupAt p.time = none))
    ∧ (∀ p ∈ points, l.shardGroupAt p.time = none →
        ∀ q ∈ m.assigned, q.2 ≠ p)
    ∧ drops = m.dropped.length
    ∧ (∀ (p : Point), p.time <
        (if 0 < rpDuration then now - rpDuration else minNanoTime) →
        ∀ (st0 : σ) (l0 : sgList) (rest : List Point),
          buildSgList createSG
            (if 0 < rpDuration then now - rpDuration else minNanoTime)
            (p :: rest) st0 l0 =
          buildSgList createSG
            (if 0 < rpDuration then now - rpDuration else minNanoTime)
            rest st0 l0) := by
  simp only [mapShards] at hok
  cases hbuild : buildSgList createSG
      (if 0 < rpDuration then now - rpDuration else minNanoTime) points st
      ⟨[], false, none, none⟩ with
  | error e => rw [hbuild] at hok; exact absurd hok (by simp)
  | ok r =>
    rw [hbuild] at hok
    simp only [Except.ok.injEq, Prod.mk.injEq] at hok
    obtain ⟨hm, hl, hd⟩ := hok
    subst hm
    subst hl
    subst hd
    obtain ⟨h1, h2, h3⟩ := assignPoints_accum r.2 points ⟨[], [], []⟩ 0
    refine ⟨?_, ?_, ?_, ?_⟩
    · intro p hp
      rw [h1]
      simp only [List.nil_append, List.mem_filter, Option.isNone_iff_eq_none]
      constructor
      · intro h
        exact h.2
      · intro h
        exact ⟨hp, h⟩
    · intro p hp hnone q hq
      rcases h3 q hq with hq0 | ⟨p', _, hsome, hqp⟩
      · simp at hq0
      · intro hqp2
        rw [hqp2] at hqp
        rw [← hqp] at hsome
        rw [hnone] at hsome
        simp at hsome
    · rw [h1, h2]
      simp
    · intro p hple st0 l0 rest
      conv =>
        lhs
        rw [buildSgList]
      rw [if_pos (Or.inl hple)]

theorem mapShards_drop_spec_witness :
    ∃ m l drops,
      mapShards (metaCreateShardGroup "db" "rp") dataFix1 10 15 ptsFix =
        .ok (m, l, drops) ∧
      (∀ p ∈ ptsFix, (p ∈ m.dropped ↔ l.shardGroupAt p.time = none)) ∧
      drops = m.dropped.length := by
  cases hok : mapShards (metaCreateShardGroup "db" "rp") dataFix1 10 15 ptsFix with
  | error e =>
    exfalso
    have hsome : (mapShards (metaCreateShardGroup "db" "rp") dataFix1 10 15
        ptsFix).toOption.isSome = true := by decide
    rw [hok] at hsome
    simp [Except.toOption] at hsome
  | ok r =>
    obtain ⟨m, l, drops⟩ := r
    obtain ⟨h1, _, h3, _⟩ :=
      mapShards_drop_spec (metaCreateShardGroup "db" "rp") dataFix1 10 15 ptsFix
        m l drops hok
    exact ⟨m, l, drops, rfl, h1, h3⟩

/-- C5, counterexample to the claim as stated: retention duration 10,
`now = 15` (so `min = 5`), points at times 6 and 4 over a one-node cluster
with an empty policy whose shard-group duration is 10.  The in-range point at
6 creates the group `[0, 10)`, which also covers the pre-`min` point at 4:
that point is assigned to shard 1 and is NOT dropped (and `writeDrop` stays
0), although its timestamp is before `min`. -/
theorem mapShards_premin_assigned_counterexample :
    ((4 : Int) < 15 - 10) ∧
    (mapShards (metaCreateShardGroup "db" "rp") dataFix1 10 15 ptsFix).toOption.map
        (fun r => (r.1.dropped, r.1.assigned.map Prod.snd, r.2.2)) =
      some ([], [⟨6, 0⟩, ⟨4, 0⟩], 0) := by
  decide

/-! ### C3: shard fan-out of CreateShardGroup -/

theorem shardNGo_sound (r n : Nat) (_hn : 0 < n) :
    ∀ (fuel k : Nat), (∃ b, k ≤ b ∧ b ≤ k + fuel ∧ n ∣ b * r) →
      n ∣ shardNGo fuel r n k * r ∧ k ≤ shardNGo fuel r n k ∧
      ∀ j, k ≤ j → j < shardNGo fuel r n k → ¬ n ∣ j * r := by
  intro fuel
  induction fuel with
  | zero =>
    intro k hb
    obtain ⟨b, hkb, hbk, hdvd⟩ := hb
    have hbe : b = k := by omega
    subst hbe
    simp only [shardNGo]
    exact ⟨hdvd, le_rfl, fun j hj1 hj2 => absurd (lt_of_le_of_lt hj1 hj2)
      (lt_irrefl _)⟩
  | succ fuel ih =>
    intro k hb
    simp only [shardNGo]
    by_cases hk : k * r % n = 0
    · rw [if_pos hk]
      refine ⟨Nat.dvd_iff_mod_eq_zero.mpr hk, le_rfl,
        fun j hj1 hj2 => absurd (lt_of_le_of_lt hj1 hj2) (lt_irrefl _)⟩
    · rw [if_neg hk]
      have hknd : ¬ n ∣ k * r := fun h =>
        hk (Nat.dvd_iff_mod_eq_zero.mp h)
      obtain ⟨b, hkb, hbk, hdvd⟩ := hb
      have hkb' : k + 1 ≤ b := by
        rcases Nat.eq_or_lt_of_le hkb with heq | hlt
        · exact absurd (heq ▸ hdvd) hknd
        · omega
      obtain ⟨ih1, ih2, ih3⟩ := ih (k + 1) ⟨b, hkb', by omega, hdvd⟩
      refine ⟨ih1, by omega, ?_⟩
      intro j hj1 hj2
      rcases Nat.eq_or_lt_of_le hj1 with heq | hlt
      · exact heq ▸ hknd
      · exact ih3 j hlt hj2

/-- C3: `CreateShardGroup` uses `replicaN' = min(max(replicaN,1), n)` and
creates exactly `shardN` shards with `shardN` the smallest positive integer
such that `n ∣ shardN·replicaN'`; with 4 data nodes and `replicaN = 2` it
creates 2 shards whose owners form 4 distinct `(shard, owner)` pairs, and
with `replicaN = 3` it creates 4 shards. -/
theorem createShardGroup_fanout_spec :
    (∀ (r n : Nat), 0 < r → 0 < n →
      0 < shardCount r n ∧ n ∣ shardCount r n * r ∧
      ∀ m, 0 < m → n ∣ m * r → shardCount r n ≤ m)
    ∧ (∀ (data : Data) (rpi : RetentionPolicyInfo) (t : Int),
        0 < data.dataNodes.length →
        clampReplicaN rpi data.dataNodes.length =
          min (max rpi.replicaN 1) data.dataNodes.length ∧
        (newShardGroup data rpi t).shards.length =
          shardCount (min (max rpi.replicaN 1) data.dataNodes.length)
            data.dataNodes.length)
    ∧ (dataFix4r2.createShardGroup "db" "rp" 0).toOption.map
        (fun d => (d.allGroups.map (fun g => g.shards.length),
          createdPairs d, decide (createdPairs d).Nodup)) =
      some ([2], [(1, 1), (1, 2), (2, 3), (2, 4)], true)
    ∧ (dataFix4r3.createShardGroup "db" "rp" 0).toOption.map
        (fun d => d.allGroups.map (fun g => g.shards.length)) =
      some [4] := by
  refine ⟨?_, ?_, by decide, by decide⟩
  · intro r n hr hn
    unfold shardCount
    have hsound := shardNGo_sound r n hn n 1
      ⟨n, by omega, by omega, ⟨r, rfl⟩⟩
    obtain ⟨h1, h2, h3⟩ := hsound
    refine ⟨by omega, h1, ?_⟩
    intro m hm hdvd
    by_contra hc
    push_neg at hc
    exact h3 m (by omega) hc hdvd
  · intro data rpi t hn
    have hclamp : clampReplicaN rpi data.dataNodes.length =
        min (max rpi.replicaN 1) data.dataNodes.length := by
      unfold clampReplicaN
      by_cases h0 : rpi.replicaN = 0
      · rw [if_pos h0, h0]
        omega
      · rw [if_neg h0]
        by_cases h1 : data.dataNodes.length < rpi.replicaN
        · rw [if_pos h1]
          omega
        · rw [if_neg h1]
          omega
    refine ⟨hclamp, ?_⟩
    unfold newShardGroup
    simp only [← hclamp]
    unfold assignOwners
    rw [List.length_mapIdx, List.length_map, List.length_range]

theorem createShardGroup_fanout_spec_witness :
    0 < shardCount 3 4 ∧ 4 ∣ shardCount 3 4 * 3 ∧
    ∀ m, 0 < m → 4 ∣ m * 3 → shardCount 3 4 ≤ m :=
  createShardGroup_fanout_spec.1 3 4 (by decide) (by decide)

/-! ### C1: non-overlap of shard groups under CreateShardGroup -/

theorem notCoversAt_cases (g : ShardGroupInfo) (t : Int)
    (hwf : wfSG g = true) (hnd : g.deletedAt = none)
    (hc : g.coversAt t = false) :
    t < g.startTime ∨ g.effectiveEnd ≤ t := by
  unfold ShardGroupInfo.coversAt ShardGroupInfo.Contains ShardGroupInfo.Deleted
    at hc
  unfold wfSG at hwf
  unfold ShardGroupInfo.effectiveEnd
  rw [hnd] at hc
  cases htr : g.truncatedAt with
  | none =>
    simp only [htr] at hc ⊢
    simp only [Option.getD_none]
    simp at hc
    omega
  | some ta =>
    simp only [htr] at hc hwf ⊢
    simp only [Option.getD_some]
    simp at hc hwf
    omega

theorem shrinkWindow_step (t : Int) (w : Int × Int) (g : ShardGroupInfo)
    (hw1 : w.1 ≤ t) (hw2 : t < w.2)
    (hwf : wfSG g = true) (hcov : g.coversAt t = false) :
    w.1 ≤ (shrinkWindow t w g).1 ∧ (shrinkWindow t w g).2 ≤ w.2 ∧
    (shrinkWindow t w g).1 ≤ t ∧ t < (shrinkWindow t w g).2 ∧
    (g.deletedAt = none →
      ∀ u, (shrinkWindow t w g).1 ≤ u → u < (shrinkWindow t w g).2 →
        ¬ (g.startTime ≤ u ∧ u < g.effectiveEnd)) := by
  unfold shrinkWindow
  by_cases hdel : g.Deleted = true
  · rw [if_pos hdel]
    have hds : ¬ g.deletedAt = none := by
      unfold ShardGroupInfo.Deleted at hdel
      cases h : g.deletedAt
      · rw [h] at hdel; simp at hdel
      · simp
    exact ⟨le_rfl, le_rfl, hw1, hw2, fun hnd => absurd hnd hds⟩
  · rw [if_neg hdel]
    have hnd : g.deletedAt = none := by
      unfold ShardGroupInfo.Deleted at hdel
      cases h : g.deletedAt
      · rfl
      · rw [h] at hdel; simp at hdel
    have hdisj := notCoversAt_cases g t hwf hnd hcov
    dsimp only
    refine ⟨?_, ?_, ?_, ?_, ?_⟩
    · split_ifs with h1 <;> omega
    · split_ifs with h2 <;> omega
    · split_ifs with h1 <;> omega
    · split_ifs with h2 <;> omega
    · intro _ u hu1 hu2 hmem
      obtain ⟨hm1, hm2⟩ := hmem
      rcases hdisj with hd | hd <;> split_ifs at hu1 hu2 <;> omega

theorem shrinkWindow_fold (t : Int) (gs : List ShardGroupInfo) :
    ∀ (w : Int × Int), w.1 ≤ t → t < w.2 →
      (∀ g ∈ gs, wfSG g = true) →
      (∀ g ∈ gs, g.coversAt t = false) →
      w.1 ≤ (gs.foldl (shrinkWindow t) w).1 ∧
      (gs.foldl (shrinkWindow t) w).2 ≤ w.2 ∧
      (gs.foldl (shrinkWindow t) w).1 ≤ t ∧
      t < (gs.foldl (shrinkWindow t) w).2 ∧
      ∀ g ∈ gs, g.deletedAt = none →
        ∀ u, (gs.foldl (shrinkWindow t) w).1 ≤ u →
          u < (gs.foldl (shrinkWindow t) w).2 →
          ¬ (g.startTime ≤ u ∧ u < g.effectiveEnd) := by
  induction gs with
  | nil =>
    intro w hw1 hw2 _ _
    simp only [List.foldl_nil]
    exact ⟨le_rfl, le_rfl, hw1, hw2, by simp⟩
  | cons g gs ih =>
    intro w hw1 hw2 hwf hcov
    simp only [List.foldl_cons]
    obtain ⟨hs1, hs2, hs3, hs4, hs5⟩ :=
      shrinkWindow_step t w g hw1 hw2 (hwf g (by simp)) (hcov g (by simp))
    obtain ⟨hi1, hi2, hi3, hi4, hi5⟩ := ih (shrinkWindow t w g) hs3 hs4
      (fun g' hg' => hwf g' (by simp [hg']))
      (fun g' hg' => hcov g' (by simp [hg']))
    refine ⟨le_trans hs1 hi1, le_trans hi2 hs2, hi3, hi4, ?_⟩
    intro g' hg' hnd u hu1 hu2
    rcases List.mem_cons.mp hg' with heq | hmem
    · subst heq
      exact hs5 hnd u (le_trans hi1 hu1) (lt_of_lt_of_le hu2 hi2)
    · exact hi5 g' hmem hnd u hu1 hu2

theorem truncate_window_contains (t sgd : Int) (hsgd : 0 < sgd)
    (ht : t ≤ maxNanoTime) :
    truncateTime t sgd ≤ t ∧
    t < (if maxNanoTime < truncateTime t sgd + sgd then maxNanoTime + 1
         else truncateTime t sgd + sgd) := by
  unfold truncateTime
  rw [if_neg (by omega)]
  have hm1 : 0 ≤ t % sgd := Int.emod_nonneg t (by omega)
  have hm2 : t % sgd < sgd := Int.emod_lt_of_pos t hsgd
  constructor
  · omega
  · split_ifs with h <;> omega

theorem updateFirst_mem_cases {α : Type _} (p : α → Bool) (f : α → α) :
    ∀ (l : List α), ∀ x ∈ updateFirst p f l,
      x ∈ l ∨ ∃ y, l.find? p = some y ∧ x = f y := by
  intro l
  induction l with
  | nil => intro x hx; simp [updateFirst] at hx
  | cons a as ih =>
    intro x hx
    by_cases hp : p a = true
    · rw [updateFirst, if_pos hp] at hx
      rcases List.mem_cons.mp hx with heq | hmem
      · exact Or.inr ⟨a, by rw [List.find?_cons_of_pos _ hp], heq⟩
      · exact Or.inl (by simp [hmem])
    · rw [updateFirst, if_neg hp] at hx
      rcases List.mem_cons.mp hx with heq | hmem
      · exact Or.inl (by simp [heq])
      · rcases ih x hmem with hin | ⟨y, hy, hxy⟩
        · exact Or.inl (by simp [hin])
        · exact Or.inr ⟨y, by rw [List.find?_cons_of_neg _ hp]; exact hy, hxy⟩

theorem sgDisjointB_implies (a b : ShardGroupInfo)
    (h : sgDisjointB a b = true) : sgDisjoint a b := by
  intro u hmem
  obtain ⟨⟨ha1, ha2, ha3⟩, ⟨hb1, hb2, hb3⟩⟩ := hmem
  unfold sgDisjointB ShardGroupInfo.Deleted at h
  rw [ha1, hb1] at h
  simp only [Option.isSome_none, Bool.false_or, Bool.or_eq_true,
    decide_eq_true_eq] at h
  rcases h with ((((h | h) | h)) | h) <;> omega

/-- C1: among non-deleted shard groups of one retention policy no point-time
is covered twice, and `CreateShardGroup` preserves this: from any `Data`
satisfying the invariant (with well-formed truncation marks and positive
shard-group durations) that has at least one data node, every policy of the
resulting `Data` again has pairwise non-overlapping non-deleted groups,
because the candidate window is shrunk against every existing non-deleted
group (effective end = `truncatedAt` for truncated ones) while keeping
`startTime ≤ t < endTime`. -/
theorem createShardGroup_nonoverlap (data : Data) (database policy : String)
    (t : Int) (d' : Data)
    (hnodes : 0 < data.dataNodes.length)
    (ht : t ≤ maxNanoTime)
    (hwf : ∀ rp ∈ data.allRPs, 0 < rp.shardGroupDuration ∧
      ∀ g ∈ rp.shardGroups, wfSG g = true)
    (hinv : ∀ rp ∈ data.allRPs,
      rp.shardGroups.Pairwise (fun a b => sgDisjointB a b = true))
    (hok : data.createShardGroup database policy t = .ok d') :
    ∀ rp ∈ d'.allRPs, rp.shardGroups.Pairwise sgDisjoint := by
  have hold : ∀ rp ∈ data.allRPs, rp.shardGroups.Pairwise sgDisjoint :=
    fun rp hrp => (hinv rp hrp).imp (fun h => sgDisjointB_implies _ _ h)
  unfold Data.createShardGroup at hok
  rw [if_neg (by omega)] at hok
  cases hrp : data.retentionPolicy database policy with
  | error e => rw [hrp] at hok; exact absurd hok (by simp)
  | ok orpi =>
    rw [hrp] at hok
    cases orpi with
    | none => exact absurd hok (by simp)
    | some rpi =>
      simp only [] at hok
      by_cases hcov : (rpi.shardGroupByTimestamp t).isSome = true
      · rw [if_pos hcov] at hok
        simp only [Except.ok.injEq] at hok
        subst hok
        exact hold
      · rw [if_neg hcov] at hok
        simp only [Except.ok.injEq] at hok
        subst hok
        intro rp' hrp'
        unfold Data.allRPs at hrp'
        simp only [List.mem_flatMap] at hrp'
        obtain ⟨di', hdi', hrpmem⟩ := hrp'
        rcases updateFirst_mem_cases _ _ _ di' hdi' with hdiold | ⟨db0, hfind, hdi'eq⟩
        · refine hold rp' ?_
          unfold Data.allRPs
          simp only [List.mem_flatMap]
          exact ⟨di', hdiold, hrpmem⟩
        · unfold Data.retentionPolicy at hrp
          cases hdb : data.database database with
          | none => rw [hdb] at hrp; exact absurd hrp (by simp)
          | some di0 =>
            rw [hdb] at hrp
            simp only [Except.ok.injEq] at hrp
            have hdb0 : db0 = di0 := by
              unfold Data.database at hdb
              rw [hdb] at hfind
              exact (Option.some.injEq _ _ ▸ hfind).symm ▸ rfl
            subst hdb0
            subst hdi'eq
            dsimp only at hrpmem
            rcases updateFirst_mem_cases _ _ _ rp' hrpmem with hrpold | ⟨rp0, hrfind, hrp'eq⟩
            · refine hold rp' ?_
              unfold Data.allRPs
              simp only [List.mem_flatMap]
              exact ⟨db0, List.mem_of_find?_eq_some hdb, hrpold⟩
            · have hrp0 : rp0 = rpi := by
                rw [hrp] at hrfind
                exact ((Option.some.injEq _ _).mp hrfind).symm
              subst hrp0
              subst hrp'eq
              dsimp only
              have hrpiMem : rp0 ∈ data.allRPs := by
                unfold Data.allRPs
                simp only [List.mem_flatMap]
                exact ⟨db0, List.mem_of_find?_eq_some hdb,
                  List.mem_of_find?_eq_some hrp⟩
              obtain ⟨hsgd, hwfg⟩ := hwf rp0 hrpiMem
              have hcovAll : ∀ g ∈ rp0.shardGroups, g.coversAt t = false := by
                have hnonecov : rp0.shardGroupByTimestamp t = none := by
                  cases h : rp0.shardGroupByTimestamp t with
                  | none => rfl
                  | some g => rw [h] at hcov; simp at hcov
                intro g hg
                have := List.find?_eq_none.mp hnonecov g hg
                cases hcv : g.coversAt t
                · rfl
                · exact absurd hcv this
              obtain ⟨hw1, hw2⟩ := truncate_window_contains t
                rp0.shardGroupDuration hsgd ht
              obtain ⟨hf1, hf2, hf3, hf4, hf5⟩ := shrinkWindow_fold t
                rp0.shardGroups
                (truncateTime t rp0.shardGroupDuration,
                  if maxNanoTime < truncateTime t rp0.shardGroupDuration +
                      rp0.shardGroupDuration then maxNanoTime + 1
                  else truncateTime t rp0.shardGroupDuration +
                    rp0.shardGroupDuration)
                hw1 hw2 hwfg hcovAll
              have hwin : shardGroupWindow rp0 t = rp0.shardGroups.foldl
                  (shrinkWindow t)
                  (truncateTime t rp0.shardGroupDuration,
                    if maxNanoTime < truncateTime t rp0.shardGroupDuration +
                        rp0.shardGroupDuration then maxNanoTime + 1
                    else truncateTime t rp0.shardGroupDuration +
                      rp0.shardGroupDuration) := rfl
              have hnewstart : (newShardGroup data rp0 t).startTime =
                  (shardGroupWindow rp0 t).1 := rfl
              have hneweff : (newShardGroup data rp0 t).effectiveEnd =
                  (shardGroupWindow rp0 t).2 := rfl
              have hnewdel : (newShardGroup data rp0 t).deletedAt = none := rfl
              have hnewdisj : ∀ g ∈ rp0.shardGroups,
                  sgDisjoint g (newShardGroup data rp0 t) := by
                intro g hg u hmm
                obtain ⟨hmg, hmnew⟩ := hmm
                refine hf5 g hg hmg.1 u ?_ ?_ ⟨hmg.2.1, hmg.2.2⟩
                · have := hmnew.2.1
                  rw [hnewstart, hwin] at this
                  exact this
                · have := hmnew.2.2
                  rw [hneweff, hwin] at this
                  exact this
              have hpair : (rp0.shardGroups ++
                  [newShardGroup data rp0 t]).Pairwise sgDisjoint := by
                rw [List.pairwise_append]
                refine ⟨hold rp0 hrpiMem, List.pairwise_singleton _ _, ?_⟩
                intro a ha b hb
                simp only [List.mem_singleton] at hb
                subst hb
                exact hnewdisj a ha
              have hsymm : ∀ {a b : ShardGroupInfo},
                  sgDisjoint a b → sgDisjoint b a := by
                intro a b h u hu
                exact h u ⟨hu.2, hu.1⟩
              exact hpair.perm (List.perm_insertionSort sgLe _).symm hsymm

theorem createShardGroup_nonoverlap_witness :
    (dataFix2g.createShardGroup "db" "rp" 25).toOption.isSome = true ∧
    ∀ rp ∈ ((dataFix2g.createShardGroup "db" "rp" 25).toOption.getD
      dataFix2g).allRPs, rp.shardGroups.Pairwise sgDisjoint := by
  refine ⟨by decide, ?_⟩
  cases hok : dataFix2g.createShardGroup "db" "rp" 25 with
  | error e =>
    exfalso
    have hsome : (dataFix2g.createShardGroup "db" "rp" 25).toOption.isSome =
        true := by decide
    rw [hok] at hsome
    simp [Except.toOption] at hsome
  | ok d' =>
    have h := createShardGroup_nonoverlap dataFix2g "db" "rp" 25 d'
      (by decide) (by decide) (by decide) (by decide) hok
    simpa [Except.toOption] using h

/-! ### DeleteDataNode: owner removal, frequency maps, reassignment -/

theorem removeOwner_fold_nomatch (nid : Nat) :
    ∀ (l : List ShardOwner) (acc : Option Nat) (k : Nat),
      (∀ o ∈ l, o.nodeID ≠ nid) →
      l.foldl (fun (st : Option Nat × Nat) o =>
          (if o.nodeID = nid then some st.2 else st.1, st.2 + 1)) (acc, k)
        = (acc, k + l.length) := by
  intro l
  induction l with
  | nil => intro acc k _; simp
  | cons a as ih =>
    intro acc k h
    have ha : ¬ a.nodeID = nid := h a (List.mem_cons_self a as)
    rw [List.foldl_cons]
    simp only []
    rw [if_neg ha]
    rw [ih acc (k + 1) (fun o ho => h o (List.mem_cons_of_mem a ho))]
    simp only [List.length_cons, Prod.mk.injEq]
    exact ⟨trivial, by omega⟩

theorem removeOwner_fold_last (nid : Nat) :
    ∀ (l1 : List ShardOwner) (o0 : ShardOwner) (l2 : List ShardOwner)
      (acc : Option Nat) (k : Nat),
      o0.nodeID = nid → (∀ o ∈ l2, o.nodeID ≠ nid) →
      (l1 ++ o0 :: l2).foldl (fun (st : Option Nat × Nat) o =>
          (if o.nodeID = nid then some st.2 else st.1, st.2 + 1)) (acc, k)
        = (some (k + l1.length), (k + l1.length) + 1 + l2.length) := by
  intro l1
  induction l1 with
  | nil =>
    intro o0 l2 acc k h0 h2
    simp only [List.nil_append, List.foldl_cons]
    rw [if_pos h0]
    rw [removeOwner_fold_nomatch nid l2 (some k) (k + 1) h2]
    simp only [List.length_nil, Prod.mk.injEq]
    exact ⟨congrArg some (by omega), trivial⟩
  | cons a l1 ih =>
    intro o0 l2 acc k h0 h2
    simp only [List.cons_append, List.foldl_cons]
    rw [ih o0 l2 (if a.nodeID = nid then some k else acc) (k + 1) h0 h2]
    simp only [List.length_cons, Prod.mk.injEq]
    exact ⟨congrArg some (by omega), by omega⟩

theorem eraseIdx_len_middle {α : Type _} :
    ∀ (l1 : List α) (x : α) (l2 : List α),
      (l1 ++ x :: l2).eraseIdx l1.length = l1 ++ l2 := by
  intro l1
  induction l1 with
  | nil => intro x l2; rfl
  | cons a l1 ih =>
    intro x l2
    simp only [List.cons_append, List.length_cons, List.eraseIdx_cons_succ]
    rw [ih]

theorem removeOwner_id_eq (nid : Nat) (s : ShardInfo) :
    (ShardInfo.removeOwner nid s).id = s.id := by
  simp only [ShardInfo.removeOwner]
  cases hidx : (s.owners.foldl
      (fun (st : Option Nat × Nat) o =>
        (if o.nodeID = nid then some st.2 else st.1, st.2 + 1)) (none, 0)).1 with
  | none => rfl
  | some i => rfl

theorem removeOwner_owners_eq (nid : Nat) (s : ShardInfo)
    (hdup : (s.owners.map (fun o => o.nodeID)).Nodup) :
    (ShardInfo.removeOwner nid s).owners
      = s.owners.filter (fun o => decide (o.nodeID ≠ nid)) := by
  by_cases hmem : nid ∈ s.owners.map (fun o => o.nodeID)
  · obtain ⟨o0, ho0mem, ho0id⟩ := List.mem_map.mp hmem
    obtain ⟨l1, l2, hsplit⟩ := List.append_of_mem ho0mem
    rw [hsplit, List.map_append, List.map_cons] at hdup
    have hnotin : o0.nodeID ∉ ((l1.map (fun o => o.nodeID))
        ++ (l2.map (fun o => o.nodeID))) :=
      (List.nodup_cons.mp (List.nodup_middle.mp hdup)).1
    have hl1 : ∀ o ∈ l1, o.nodeID ≠ nid := by
      intro o ho heq
      exact hnotin (List.mem_append_left _
        (List.mem_map.mpr ⟨o, ho, by rw [heq, ho0id]⟩))
    have hl2 : ∀ o ∈ l2, o.nodeID ≠ nid := by
      intro o ho heq
      exact hnotin (List.mem_append_right _
        (List.mem_map.mpr ⟨o, ho, by rw [heq, ho0id]⟩))
    simp only [ShardInfo.removeOwner, hsplit]
    rw [removeOwner_fold_last nid l1 o0 l2 none 0 ho0id hl2]
    have hfilter : (l1 ++ o0 :: l2).filter (fun o => decide (o.nodeID ≠ nid))
        = l1 ++ l2 := by
      rw [List.filter_append, List.filter_cons]
      rw [List.filter_eq_self.mpr (fun o ho => by simpa using hl1 o ho)]
      rw [if_neg (by simp [ho0id])]
      rw [List.filter_eq_self.mpr (fun o ho => by simpa using hl2 o ho)]
    rw [hfilter]
    have hzero : (0 : Nat) + l1.length = l1.length := by omega
    simp only [hzero]
    exact eraseIdx_len_middle l1 o0 l2
  · have hall : ∀ o ∈ s.owners, o.nodeID ≠ nid := by
      intro o ho heq
      exact hmem (List.mem_map.mpr ⟨o, ho, heq⟩)
    simp only [ShardInfo.removeOwner]
    rw [removeOwner_fold_nomatch nid s.owners none 0 hall]
    exact (List.filter_eq_self.mpr (fun o ho => by simpa using hall o ho)).symm

theorem incrFreq_fst_mem (k : Nat) :
    ∀ (m : List (Nat × Nat)), ∀ p ∈ incrFreq k m,
      p.1 = k ∨ p.1 ∈ m.map Prod.fst := by
  intro m
  induction m with
  | nil =>
    intro p hp
    simp only [incrFreq, List.mem_singleton] at hp
    exact Or.inl (by rw [hp])
  | cons q rest ih =>
    intro p hp
    obtain ⟨k', c⟩ := q
    by_cases hk : k' = k
    · rw [incrFreq, if_pos hk] at hp
      rcases List.mem_cons.mp hp with heq | hmem
      · exact Or.inl (by rw [heq])
      · exact Or.inr (by
          simp only [List.map_cons]
          exact List.mem_cons_of_mem _ (List.mem_map.mpr ⟨p, hmem, rfl⟩))
    · rw [incrFreq, if_neg hk] at hp
      rcases List.mem_cons.mp hp with heq | hmem
      · exact Or.inr (by rw [heq]; simp)
      · rcases ih p hmem with h | h
        · exact Or.inl h
        · exact Or.inr (by
            simp only [List.map_cons]
            exact List.mem_cons_of_mem _ h)

theorem incrFreq_keys_nodup (k : Nat) :
    ∀ (m : List (Nat × Nat)), (m.map Prod.fst).Nodup →
      ((incrFreq k m).map Prod.fst).Nodup := by
  intro m
  induction m with
  | nil => intro _; simp [incrFreq]
  | cons q rest ih =>
    intro hnd
    obtain ⟨k', c⟩ := q
    simp only [List.map_cons, List.nodup_cons] at hnd
    by_cases hk : k' = k
    · rw [incrFreq, if_pos hk]
      simp only [List.map_cons, List.nodup_cons]
      exact ⟨by rw [← hk]; exact hnd.1, hnd.2⟩
    · rw [incrFreq, if_neg hk]
      simp only [List.map_cons, List.nodup_cons]
      refine ⟨?_, ih hnd.2⟩
      intro hin
      obtain ⟨p, hpmem, hpfst⟩ := List.mem_map.mp hin
      rcases incrFreq_fst_mem k rest p hpmem with h | h
      · exact hk (by rw [← hpfst, h])
      · exact hnd.1 (by rw [← hpfst]; exact h)

theorem ownerFold_keys_nodup :
    ∀ (l : List ShardOwner) (m : List (Nat × Nat)),
      (m.map Prod.fst).Nodup →
      ((l.foldl (fun m' o => incrFreq o.nodeID m') m).map Prod.fst).Nodup := by
  intro l
  induction l with
  | nil => intro m hm; exact hm
  | cons a as ih =>
    intro m hm
    rw [List.foldl_cons]
    exact ih (incrFreq a.nodeID m) (incrFreq_keys_nodup a.nodeID m hm)

theorem groupOwnerFreqs_keys_nodup (shards : List ShardInfo) :
    ((groupOwnerFreqs shards).map Prod.fst).Nodup := by
  have hgen : ∀ (l : List ShardInfo) (m : List (Nat × Nat)),
      (m.map Prod.fst).Nodup →
      ((l.foldl (fun m s => s.owners.foldl
          (fun m' o => incrFreq o.nodeID m') m) m).map Prod.fst).Nodup := by
    intro l
    induction l with
    | nil => intro m hm; exact hm
    | cons s rest ih =>
      intro m hm
      rw [List.foldl_cons]
      exact ih _ (ownerFold_keys_nodup s.owners m hm)
  exact hgen shards [] (by simp)

theorem eraseFreq_mem (k : Nat) :
    ∀ (m : List (Nat × Nat)), (m.map Prod.fst).Nodup →
      ∀ p ∈ eraseFreq k m, p ∈ m ∧ p.1 ≠ k := by
  intro m
  induction m with
  | nil => intro _ p hp; simp [eraseFreq] at hp
  | cons q rest ih =>
    intro hnd p hp
    obtain ⟨k', c⟩ := q
    simp only [List.map_cons, List.nodup_cons] at hnd
    by_cases hk : k' = k
    · rw [eraseFreq, if_pos hk] at hp
      refine ⟨List.mem_cons_of_mem _ hp, ?_⟩
      intro hpk
      exact hnd.1 (by
        rw [← hk] at hpk
        exact hpk ▸ List.mem_map.mpr ⟨p, hp, rfl⟩)
    · rw [eraseFreq, if_neg hk] at hp
      rcases List.mem_cons.mp hp with heq | hmem
      · exact ⟨by rw [heq]; exact List.mem_cons_self _ _, by rw [heq]; exact hk⟩
      · obtain ⟨h1, h2⟩ := ih hnd.2 p hmem
        exact ⟨List.mem_cons_of_mem _ h1, h2⟩

theorem minFreqFold_spec :
    ∀ (l : List (Nat × Nat)) (q : Nat × Nat),
      ∃ r, l.foldl (fun acc p =>
          match acc with
          | none => some p
          | some q' => if p.2 < q'.2 then some p else some q') (some q) = some r ∧
        ((r = q ∧ ∀ z ∈ l, q.2 ≤ z.2) ∨
         (∃ pre post, l = pre ++ r :: post ∧ r.2 < q.2 ∧
           (∀ z ∈ pre, r.2 < z.2) ∧ (∀ z ∈ post, r.2 ≤ z.2))) := by
  intro l
  induction l with
  | nil =>
    intro q
    exact ⟨q, rfl, Or.inl ⟨rfl, by simp⟩⟩
  | cons z t ih =>
    intro q
    rw [List.foldl_cons]
    by_cases hlt : z.2 < q.2
    · obtain ⟨r, hr, hcase⟩ := ih z
      refine ⟨r, ?_, ?_⟩
      · rw [← hr]
        congr 1
        simp only []
        rw [if_pos hlt]
      · rcases hcase with ⟨hrz, hmin⟩ | ⟨pre, post, ht, hrlt, hpre, hpost⟩
        · exact Or.inr ⟨[], t, by rw [hrz]; rfl, by rw [hrz]; exact hlt,
            by simp, by rw [hrz]; exact hmin⟩
        · exact Or.inr ⟨z :: pre, post, by rw [ht]; rfl, by omega,
            by
              intro w hw
              rcases List.mem_cons.mp hw with heq | hmem
              · rw [heq]; omega
              · exact hpre w hmem,
            hpost⟩
    · obtain ⟨r, hr, hcase⟩ := ih q
      refine ⟨r, ?_, ?_⟩
      · rw [← hr]
        congr 1
        simp only []
        rw [if_neg hlt]
      · rcases hcase with ⟨hrq, hmin⟩ | ⟨pre, post, ht, hrlt, hpre, hpost⟩
        · refine Or.inl ⟨hrq, ?_⟩
          intro w hw
          rcases List.mem_cons.mp hw with heq | hmem
          · rw [heq]; omega
          · exact hmin w hmem
        · exact Or.inr ⟨z :: pre, post, by rw [ht]; rfl, hrlt,
            by
              intro w hw
              rcases List.mem_cons.mp hw with heq | hmem
              · rw [heq]; omega
              · exact hpre w hmem,
            hpost⟩

theorem minFreqScan_first_min (l : List (Nat × Nat)) (r : Nat × Nat)
    (h : minFreqScan l = some r) :
    ∃ pre post, l = pre ++ r :: post ∧ (∀ z ∈ pre, r.2 < z.2) ∧
      ∀ z ∈ l, r.2 ≤ z.2 := by
  cases l with
  | nil => exact absurd h (by simp [minFreqScan])
  | cons q t =>
    rw [minFreqScan, List.foldl_cons] at h
    simp only [] at h
    obtain ⟨r', hr', hcase⟩ := minFreqFold_spec t q
    rw [hr'] at h
    have hrr : r' = r := by
      have := Option.some.injEq r' r
      exact Option.some_inj.mp h
    rw [hrr] at hcase
    rcases hcase with ⟨hrq, hmin⟩ | ⟨pre, post, ht, hrlt, hpre, hpost⟩
    · refine ⟨[], t, by rw [hrq]; rfl, by simp, ?_⟩
      intro z hz
      rcases List.mem_cons.mp hz with heq | hmem
      · rw [heq, hrq]
      · rw [hrq]; exact hmin z hmem
    · refine ⟨q :: pre, post, by rw [ht]; rfl, ?_, ?_⟩
      · intro z hz
        rcases List.mem_cons.mp hz with heq | hmem
        · rw [heq]; exact hrlt
        · exact hpre z hmem
      · intro z hz
        rcases List.mem_cons.mp hz with heq | hmem
        · rw [heq]; omega
        · rw [ht] at hmem
          rcases List.mem_append.mp hmem with h1 | h2
          · have := hpre z h1; omega
          · rcases List.mem_cons.mp h2 with heq | hmem2
            · rw [heq]
            · exact hpost z hmem2

theorem newShardOwner_ok (s : ShardInfo) (freqs : List (Nat × Nat))
    (mid : Nat) (freqs' : List (Nat × Nat))
    (h : newShardOwner s freqs = .ok (mid, freqs')) :
    freqs' = incrFreq mid freqs ∧
    ∃ f pre post, freqs = pre ++ (mid, f) :: post ∧
      (∀ z ∈ pre, f < z.2) ∧ ∀ z ∈ freqs, f ≤ z.2 := by
  rw [newShardOwner] at h
  cases hscan : minFreqScan freqs with
  | none => rw [hscan] at h; exact absurd h (by simp)
  | some p =>
    obtain ⟨m, f⟩ := p
    rw [hscan] at h
    simp only [Except.ok.injEq, Prod.mk.injEq] at h
    obtain ⟨hm, hf⟩ := h
    obtain ⟨pre, post, hsplit, hpre, hall⟩ := minFreqScan_first_min freqs (m, f) hscan
    rw [← hm]
    exact ⟨hf.symm, f, pre, post, hsplit, hpre, hall⟩

theorem updateFirst_nomatch {α : Type _} (p : α → Bool) (f : α → α) :
    ∀ (l : List α), (∀ z ∈ l, p z = false) → updateFirst p f l = l := by
  intro l
  induction l with
  | nil => intro _; rfl
  | cons a as ih =>
    intro h
    rw [updateFirst, if_neg (by simp [h a (List.mem_cons_self a as)])]
    rw [ih (fun z hz => h z (List.mem_cons_of_mem a hz))]

theorem updateFirst_decomp {α : Type _} (p : α → Bool) (f : α → α) :
    ∀ (l : List α) (y : α), l.find? p = some y →
      ∃ pre post, l = pre ++ y :: post ∧ (∀ z ∈ pre, p z = false) ∧
        p y = true ∧ updateFirst p f l = pre ++ f y :: post := by
  intro l
  induction l with
  | nil => intro y hy; simp at hy
  | cons a as ih =>
    intro y hy
    cases hp : p a with
    | true =>
      rw [List.find?_cons_of_pos _ hp] at hy
      have hay : a = y := Option.some_inj.mp hy
      refine ⟨[], as, by rw [hay]; rfl, by simp, by rw [← hay]; exact hp, ?_⟩
      rw [updateFirst, if_pos hp, hay]
      rfl
    | false =>
      rw [List.find?_cons_of_neg _ (by simp [hp])] at hy
      obtain ⟨pre, post, hsplit, hpre, hpy, hupd⟩ := ih y hy
      refine ⟨a :: pre, post, by rw [hsplit]; rfl, ?_, hpy, ?_⟩
      · intro z hz
        rcases List.mem_cons.mp hz with heq | hmem
        · rw [heq]; exact hp
        · exact hpre z hmem
      · rw [updateFirst, if_neg (by simp [hp]), hupd]
        rfl

theorem updateFirst_map_eq {α β : Type _} (p : α → Bool) (f : α → α)
    (g : α → β) (hg : ∀ x, g (f x) = g x) :
    ∀ (l : List α), (updateFirst p f l).map g = l.map g := by
  intro l
  induction l with
  | nil => rfl
  | cons a as ih =>
    by_cases hp : p a = true
    · rw [updateFirst, if_pos hp]
      simp only [List.map_cons, hg]
    · rw [updateFirst, if_neg hp]
      simp only [List.map_cons, ih]

theorem reassignOrphans_spec (nid : Nat) :
    ∀ (orphans : List ShardInfo) (freqs : List (Nat × Nat))
      (shards shards' : List ShardInfo),
      reassignOrphans orphans freqs shards = .ok shards' →
      (∀ k ∈ freqs.map Prod.fst, k ≠ nid) →
      ((shards.map (fun s => s.id)).Nodup) →
      (∀ s ∈ shards, ∀ o ∈ s.owners, o.nodeID ≠ nid) →
      (∀ s ∈ shards, s.owners = [] → ∃ o ∈ orphans, o.id = s.id) →
      (∀ s ∈ shards', ∀ o ∈ s.owners, o.nodeID ≠ nid) ∧
      (∀ s ∈ shards', s.owners ≠ []) := by
  intro orphans
  induction orphans with
  | nil =>
    intro freqs shards shards' hok _ _ hnoid horph
    rw [reassignOrphans] at hok
    have hss : shards = shards' := by simpa using hok
    rw [← hss]
    refine ⟨hnoid, ?_⟩
    intro s hs hempty
    obtain ⟨o, ho, _⟩ := horph s hs hempty
    simp at ho
  | cons orphan rest ih =>
    intro freqs shards shards' hok hkeys hids hnoid horph
    rw [reassignOrphans] at hok
    cases hnew : newShardOwner orphan freqs with
    | error e => rw [hnew] at hok; exact absurd hok (by simp)
    | ok pr =>
      obtain ⟨newID, freqs'⟩ := pr
      rw [hnew] at hok
      simp only [] at hok
      obtain ⟨hfreqs', fv, prefr, postfr, hfsplit, _, _⟩ :=
        newShardOwner_ok orphan freqs newID freqs' hnew
      have hnewid : newID ≠ nid := by
        refine hkeys newID ?_
        rw [hfsplit, List.map_append, List.map_cons]
        exact List.mem_append_right _ (List.mem_cons_self _ _)
      have hkeys' : ∀ k ∈ freqs'.map Prod.fst, k ≠ nid := by
        intro k hk
        obtain ⟨pp, hppmem, hppfst⟩ := List.mem_map.mp hk
        rw [hfreqs'] at hppmem
        rcases incrFreq_fst_mem newID freqs pp hppmem with h | h
        · rw [← hppfst, h]; exact hnewid
        · exact hkeys k (by rw [← hppfst]; exact h)
      have hids2 : (((updateFirst (fun s => decide (s.id = orphan.id))
          (fun s => { s with owners := s.owners ++ [⟨newID⟩] })
          shards).map (fun s => s.id)).Nodup) := by
        rw [updateFirst_map_eq (fun s => decide (s.id = orphan.id))
          (fun s => { s with owners := s.owners ++ [⟨newID⟩] })
          (fun s => s.id) (fun x => rfl) shards]
        exact hids
      have hnoid2 : ∀ s ∈ updateFirst (fun s => decide (s.id = orphan.id))
          (fun s => { s with owners := s.owners ++ [⟨newID⟩] }) shards,
          ∀ o ∈ s.owners, o.nodeID ≠ nid := by
        intro s hs o ho
        rcases updateFirst_mem_cases _ _ shards s hs with hin | ⟨y, hyfind, hsy⟩
        · exact hnoid s hin o ho
        · have hymem : y ∈ shards := List.mem_of_find?_eq_some hyfind
          rw [hsy] at ho
          rcases List.mem_append.mp ho with hy | hnew1
          · exact hnoid y hymem o hy
          · have : o = (⟨newID⟩ : ShardOwner) := by simpa using hnew1
            rw [this]
            exact hnewid
      have horph2 : ∀ s ∈ updateFirst (fun s => decide (s.id = orphan.id))
          (fun s => { s with owners := s.owners ++ [⟨newID⟩] }) shards,
          s.owners = [] → ∃ o ∈ rest, o.id = s.id := by
        intro s hs hempty
        cases hfind : shards.find? (fun s => decide (s.id = orphan.id)) with
        | none =>
          have hnm : ∀ z ∈ shards,
              (fun (s : ShardInfo) => decide (s.id = orphan.id)) z = false := by
            intro z hz
            have := List.find?_eq_none.mp hfind z hz
            simpa using this
          rw [updateFirst_nomatch _ _ shards hnm] at hs
          obtain ⟨o, homem, hoid⟩ := horph s hs hempty
          rcases List.mem_cons.mp homem with heq | hmem
          · exfalso
            have hfalse := hnm s hs
            rw [heq] at hoid
            simp [hoid.symm] at hfalse
          · exact ⟨o, hmem, hoid⟩
        | some y =>
          obtain ⟨pre, post, hsplit, hprefalse, hpy, hupd⟩ :=
            updateFirst_decomp _ _ shards y hfind
          rw [hupd] at hs
          rcases List.mem_append.mp hs with hpre | hrest
          · have hsmem : s ∈ shards := by
              rw [hsplit]; exact List.mem_append_left _ hpre
            obtain ⟨o, homem, hoid⟩ := horph s hsmem hempty
            rcases List.mem_cons.mp homem with heq | hmem
            · exfalso
              have hfalse := hprefalse s hpre
              rw [heq] at hoid
              simp [hoid.symm] at hfalse
            · exact ⟨o, hmem, hoid⟩
          · rcases List.mem_cons.mp hrest with hfy | hpost
            · exfalso
              rw [hfy] at hempty
              simp at hempty
            · have hsmem : s ∈ shards := by
                rw [hsplit]
                exact List.mem_append_right _ (List.mem_cons_of_mem _ hpost)
              obtain ⟨o, homem, hoid⟩ := horph s hsmem hempty
              rcases List.mem_cons.mp homem with heq | hmem
              · exfalso
                rw [heq] at hoid
                have hyid : y.id = orphan.id := by simpa using hpy
                have hnd := hids
                rw [hsplit, List.map_append, List.map_cons] at hnd
                have hmid := List.nodup_cons.mp (List.nodup_middle.mp hnd)
                refine hmid.1 (List.mem_append_right _ ?_)
                refine List.mem_map.mpr ⟨s, hpost, ?_⟩
                exact (hyid.trans hoid).symm
              · exact ⟨o, hmem, hoid⟩
      exact ih freqs' _ shards' hok hkeys' hids2 hnoid2 horph2

theorem deleteNodeFromGroup_ok (nid : Nat) (now : Int) (sg sg' : ShardGroupInfo)
    (hdup : ∀ s ∈ sg.shards, (s.owners.map (fun o => o.nodeID)).Nodup)
    (hids : (sg.shards.map (fun s => s.id)).Nodup)
    (hok : deleteNodeFromGroup nid now sg = .ok sg') :
    (∀ s ∈ sg'.shards, ∀ o ∈ s.owners, o.nodeID ≠ nid) ∧
    sg'.deletedAt = (if sg.shards.length = 0 ∨
        ((sg.shards.map (ShardInfo.removeOwner nid)).filter
          (fun s => s.owners.isEmpty)).length = sg.shards.length
      then some now else sg.deletedAt) ∧
    (¬ (sg.shards.length = 0 ∨
        ((sg.shards.map (ShardInfo.removeOwner nid)).filter
          (fun s => s.owners.isEmpty)).length = sg.shards.length) →
      ∀ s ∈ sg'.shards, s.owners ≠ []) := by
  have hnoid1 : ∀ s ∈ sg.shards.map (ShardInfo.removeOwner nid),
      ∀ o ∈ s.owners, o.nodeID ≠ nid := by
    intro s hs o ho
    obtain ⟨s0, hs0mem, hs0⟩ := List.mem_map.mp hs
    rw [← hs0, removeOwner_owners_eq nid s0 (hdup s0 hs0mem)] at ho
    have := List.of_mem_filter ho
    simpa using this
  simp only [deleteNodeFromGroup] at hok
  by_cases hc : sg.shards.length = 0 ∨
      ((sg.shards.map (ShardInfo.removeOwner nid)).filter
        (fun s => s.owners.isEmpty)).length = sg.shards.length
  · rw [if_pos hc] at hok
    have hsg' : sg' = { sg with
        shards := sg.shards.map (ShardInfo.removeOwner nid),
        deletedAt := some now } := by
      simpa using hok.symm
    rw [hsg']
    refine ⟨hnoid1, by rw [if_pos hc], fun hnc => absurd hc hnc⟩
  · rw [if_neg hc] at hok
    cases hre : reassignOrphans
        ((sg.shards.map (ShardInfo.removeOwner nid)).filter
          (fun s => s.owners.isEmpty))
        (eraseFreq nid (groupOwnerFreqs sg.shards))
        (sg.shards.map (ShardInfo.removeOwner nid)) with
    | error e => rw [hre] at hok; exact absurd hok (by simp)
    | ok shards2 =>
      rw [hre] at hok
      have hsg' : sg' = { sg with shards := shards2 } := by simpa using hok.symm
      have hkeys : ∀ k ∈ (eraseFreq nid (groupOwnerFreqs sg.shards)).map Prod.fst,
          k ≠ nid := by
        intro k hk
        obtain ⟨pp, hppmem, hppfst⟩ := List.mem_map.mp hk
        obtain ⟨_, hpk⟩ := eraseFreq_mem nid (groupOwnerFreqs sg.shards)
          (groupOwnerFreqs_keys_nodup sg.shards) pp hppmem
        rw [← hppfst]
        exact hpk
      have hids1 : (((sg.shards.map (ShardInfo.removeOwner nid)).map
          (fun s => s.id)).Nodup) := by
        rw [List.map_map]
        have : ((fun s => s.id) ∘ ShardInfo.removeOwner nid)
            = (fun (s : ShardInfo) => s.id) := by
          funext s
          exact removeOwner_id_eq nid s
        rw [this]
        exact hids
      have horph : ∀ s ∈ sg.shards.map (ShardInfo.removeOwner nid),
          s.owners = [] →
          ∃ o ∈ (sg.shards.map (ShardInfo.removeOwner nid)).filter
            (fun s => s.owners.isEmpty), o.id = s.id := by
        intro s hs hempty
        refine ⟨s, List.mem_filter.mpr ⟨hs, by rw [hempty]; rfl⟩, rfl⟩
      obtain ⟨hnoid2, hne2⟩ := reassignOrphans_spec nid
        ((sg.shards.map (ShardInfo.removeOwner nid)).filter
          (fun s => s.owners.isEmpty))
        (eraseFreq nid (groupOwnerFreqs sg.shards))
        (sg.shards.map (ShardInfo.removeOwner nid)) shards2
        hre hkeys hids1 hnoid1 horph
      rw [hsg']
      exact ⟨hnoid2, by rw [if_neg hc], fun _ => hne2⟩

theorem mapExcept_ok_mem {α β ε : Type _} (f : α → Except ε β) :
    ∀ (l : List α) (l' : List β), mapExcept f l = .ok l' →
      ∀ y ∈ l', ∃ x ∈ l, f x = .ok y := by
  intro l
  induction l with
  | nil =>
    intro l' h y hy
    rw [mapExcept] at h
    have : ([] : List β) = l' := by simpa using h
    rw [← this] at hy
    simp at hy
  | cons x xs ih =>
    intro l' h y hy
    rw [mapExcept] at h
    cases hfx : f x with
    | error e => rw [hfx] at h; exact absurd h (by simp)
    | ok b =>
      rw [hfx] at h
      cases hrest : mapExcept f xs with
      | error e => rw [hrest] at h; exact absurd h (by simp)
      | ok bs =>
        rw [hrest] at h
        have hl' : b :: bs = l' := by simpa using h
        rw [← hl'] at hy
        rcases List.mem_cons.mp hy with heq | hmem
        · exact ⟨x, List.mem_cons_self _ _, by rw [hfx, heq]⟩
        · obtain ⟨x', hx'mem, hx'⟩ := ih bs hrest y hmem
          exact ⟨x', List.mem_cons_of_mem _ hx'mem, hx'⟩

theorem deleteDataNode_groups (data : Data) (nid : Nat) (now : Int) (d' : Data)
    (hok : data.deleteDataNode nid now = .ok d') :
    ∀ g' ∈ d'.allGroups, ∃ g ∈ data.allGroups,
      deleteNodeFromGroup nid now g = .ok g' := by
  simp only [Data.deleteDataNode] at hok
  by_cases hlen : (data.dataNodes.filter (fun nd => decide (nd.id ≠ nid))).length
      = data.dataNodes.length
  · rw [if_pos hlen] at hok
    exact absurd hok (by simp)
  · rw [if_neg hlen] at hok
    cases hmap : mapExcept (fun (di : DatabaseInfo) =>
        Except.map (fun rps => { di with retentionPolicies := rps })
          (mapExcept (fun (rpi : RetentionPolicyInfo) =>
            Except.map (fun sgs => { rpi with shardGroups := sgs })
              (mapExcept (deleteNodeFromGroup nid now) rpi.shardGroups))
            di.retentionPolicies)) data.databases with
    | error e => rw [hmap] at hok; exact absurd hok (by simp)
    | ok dbs' =>
      rw [hmap] at hok
      have hd' : d' = { data with
          dataNodes := data.dataNodes.filter (fun nd => decide (nd.id ≠ nid)),
          databases := dbs' } := by
        simpa using hok.symm
      intro g' hg'
      rw [hd'] at hg'
      simp only [Data.allGroups, List.mem_flatMap] at hg'
      obtain ⟨di', hdi'mem, rp', hrp'mem, hg'mem⟩ := hg'
      obtain ⟨di, hdimem, hFdi⟩ := mapExcept_ok_mem _ data.databases dbs' hmap
        di' hdi'mem
      cases hrps : mapExcept (fun (rpi : RetentionPolicyInfo) =>
          Except.map (fun sgs => { rpi with shardGroups := sgs })
            (mapExcept (deleteNodeFromGroup nid now) rpi.shardGroups))
          di.retentionPolicies with
      | error e => rw [hrps] at hFdi; exact absurd hFdi (by simp [Except.map])
      | ok rps' =>
        rw [hrps] at hFdi
        have hdi' : di' = { di with retentionPolicies := rps' } := by
          simpa [Except.map] using hFdi.symm
        rw [hdi'] at hrp'mem
        obtain ⟨rpi, hrpimem, hGrpi⟩ := mapExcept_ok_mem _ di.retentionPolicies
          rps' hrps rp' hrp'mem
        cases hsgs : mapExcept (deleteNodeFromGroup nid now) rpi.shardGroups with
        | error e => rw [hsgs] at hGrpi; exact absurd hGrpi (by simp [Except.map])
        | ok sgs' =>
          rw [hsgs] at hGrpi
          have hrp' : rp' = { rpi with shardGroups := sgs' } := by
            simpa [Except.map] using hGrpi.symm
          rw [hrp'] at hg'mem
          obtain ⟨g, hgmem, hgok⟩ := mapExcept_ok_mem _ rpi.shardGroups sgs'
            hsgs g' hg'mem
          refine ⟨g, ?_, hgok⟩
          simp only [Data.allGroups, List.mem_flatMap]
          exact ⟨di, hdimem, rpi, hrpimem, hgmem⟩

/-- C4: after a successful `DeleteDataNode(id)` (given per-shard owner lists
without duplicate node ids and per-group shard lists without duplicate shard
ids), node `id` appears in no shard's owner set; every resulting group arises
from a source group whose `deletedAt` is set to `now` exactly when the group
had no shards or every one of its shards lost all of its owners, and
otherwise every shard of the resulting group keeps at least one owner; and
`newShardOwner` picks the first-encountered node with the minimum running
count, bumping that node's count. -/
theorem deleteDataNode_spec (data : Data) (nid : Nat) (now : Int) (d' : Data)
    (hdup : ∀ g ∈ data.allGroups, ∀ s ∈ g.shards,
      (s.owners.map (fun o => o.nodeID)).Nodup)
    (hids : ∀ g ∈ data.allGroups, (g.shards.map (fun s => s.id)).Nodup)
    (hok : data.deleteDataNode nid now = .ok d') :
    (∀ g ∈ d'.allGroups, ∀ s ∈ g.shards, ∀ o ∈ s.owners, o.nodeID ≠ nid)
    ∧ (∀ g' ∈ d'.allGroups, ∃ g ∈ data.allGroups,
        deleteNodeFromGroup nid now g = .ok g' ∧
        g'.deletedAt = (if g.shards.length = 0 ∨
            ((g.shards.map (ShardInfo.removeOwner nid)).filter
              (fun s => s.owners.isEmpty)).length = g.shards.length
          then some now else g.deletedAt) ∧
        (¬ (g.shards.length = 0 ∨
            ((g.shards.map (ShardInfo.removeOwner nid)).filter
              (fun s => s.owners.isEmpty)).length = g.shards.length) →
          ∀ s ∈ g'.shards, s.owners ≠ []))
    ∧ (∀ (s : ShardInfo) (freqs : List (Nat × Nat)) (mid : Nat)
        (freqs' : List (Nat × Nat)),
        newShardOwner s freqs = .ok (mid, freqs') →
        freqs' = incrFreq mid freqs ∧
        ∃ f pre post, freqs = pre ++ (mid, f) :: post ∧
          (∀ z ∈ pre, f < z.2) ∧ ∀ z ∈ freqs, f ≤ z.2) := by
  have hcorr := deleteDataNode_groups data nid now d' hok
  refine ⟨?_, ?_, ?_⟩
  · intro g' hg' s hs o ho
    obtain ⟨g, hgmem, hgok⟩ := hcorr g' hg'
    exact (deleteNodeFromGroup_ok nid now g g' (hdup g hgmem) (hids g hgmem)
      hgok).1 s hs o ho
  · intro g' hg'
    obtain ⟨g, hgmem, hgok⟩ := hcorr g' hg'
    obtain ⟨_, hdel, hne⟩ := deleteNodeFromGroup_ok nid now g g'
      (hdup g hgmem) (hids g hgmem) hgok
    exact ⟨g, hgmem, hgok, hdel, hne⟩
  · intro s freqs mid freqs' h
    exact newShardOwner_ok s freqs mid freqs' h

theorem deleteDataNode_spec_witness :
    (dataFix3b.deleteDataNode 2 99).toOption.isSome = true ∧
    ∀ g ∈ ((dataFix3b.deleteDataNode 2 99).toOption.getD dataFix3b).allGroups,
      ∀ s ∈ g.shards, ∀ o ∈ s.owners, o.nodeID ≠ 2 := by
  refine ⟨by decide, ?_⟩
  cases hok : dataFix3b.deleteDataNode 2 99 with
  | error e =>
    exfalso
    have hsome : (dataFix3b.deleteDataNode 2 99).toOption.isSome = true := by
      decide
    rw [hok] at hsome
    simp [Except.toOption] at hsome
  | ok d' =>
    have h := (deleteDataNode_spec dataFix3b 2 99 d' (by decide) (by decide)
      hok).1
    simpa [Except.toOption] using h
